import Mathlib

/-!
Verification of the recruitment planner of `autoRecruitment.py`.

The Python functions `calculate_distribution`, `balance_distribution`,
`estimate_recruitment_time` and the per-cycle planning logic of
`execute_recruitment_loop` are shallowly embedded below.  Python dicts are
modelled as insertion-ordered association lists with unique keys, Python
ints as `Int`, and Python float arithmetic as exact rational arithmetic
over `Rat` (the planner only ever multiplies and divides small game
quantities, the float rounding of which is immaterial to the properties
proved here).  Network reads (city snapshots, busy refreshes) are modelled
as explicit inputs to the pure cycle functions.
-/

set_option maxHeartbeats 2000000
set_option maxRecDepth 4000

namespace AutoRecruitment

/-! ### Python dict model: insertion-ordered association lists -/

/-- Python `d.get(k)` / `d[k]`: value of the first entry with key `k`. -/
def lookupD {α : Type} (m : List (ℕ × α)) (k : ℕ) : Option α :=
  (m.find? (fun p => p.1 == k)).map Prod.snd

/-- Python `k in d`. -/
def containsD {α : Type} (m : List (ℕ × α)) (k : ℕ) : Bool :=
  m.any (fun p => p.1 == k)

/-- Python `d.get(k, 0)` for integer-valued dicts. -/
def getD0 (m : List (ℕ × ℤ)) (k : ℕ) : ℤ :=
  (lookupD m k).getD 0

/-- Python `d[k] = v`: update in place if present, else append. -/
def setD {α : Type} : List (ℕ × α) → ℕ → α → List (ℕ × α)
  | [], k, v => [(k, v)]
  | p :: rest, k, v => if p.1 == k then (k, v) :: rest else p :: setD rest k v

/-- Python `del d[k]`. -/
def eraseD {α : Type} (m : List (ℕ × α)) (k : ℕ) : List (ℕ × α) :=
  m.filter (fun p => p.1 != k)

/-- Sum of the values of an integer-valued dict (`sum(d.values())`). -/
def sumVals (m : List (ℕ × ℤ)) : ℤ :=
  (m.map Prod.snd).sum

/-! ### Data model -/

/-- Python `int()` applied to a rational value: truncation toward zero. -/
def pyInt (q : ℚ) : ℤ :=
  if 0 ≤ q then q.floor else q.ceil

/-- Per-unit cost/time record stored in a building's `unit_data` table. -/
structure UnitData where
  citizens : ℤ := 0
  wood : ℤ := 0
  wine : ℤ := 0
  marble : ℤ := 0
  crystal : ℤ := 0
  sulfur : ℤ := 0
  time_seconds : ℚ := 0
deriving Inhabited, DecidableEq

/-- One production building record of `buildings_data`. -/
structure Building where
  city_id : ℕ := 0
  city_name : String := ""
  unit_data : List (ℕ × UnitData) := []
  is_busy : Bool := false
  queue_remaining_time : ℚ := 0
  assignments : List (ℕ × ℤ) := []
  estimated_time : ℚ := 0
  remaining_assignments : List (ℕ × ℤ) := []
deriving Inhabited, DecidableEq

/-- One city's live resource/citizen snapshot. -/
structure CityResources where
  citizens : ℤ := 0
  wood : ℤ := 0
  wine : ℤ := 0
  marble : ℤ := 0
  crystal : ℤ := 0
  sulfur : ℤ := 0
deriving Inhabited, DecidableEq

/-! ### calculate_distribution (autoRecruitment.py lines 857-927) -/

/-- `building['unit_data'][u]['time_seconds']` (only applied at capable buildings). -/
def unitTime (b : Building) (u : ℕ) : ℚ :=
  ((lookupD b.unit_data u).getD default).time_seconds

/-- Lines 884-887: `speed = 1.0 / time_per_unit if time_per_unit > 0 else 1.0`. -/
def speedOf (t : ℚ) : ℚ :=
  if 0 < t then 1 / t else 1

/-- Lines 872-875: the capable set for a unit type, in building-list order. -/
def capableOf (bs : List Building) (u : ℕ) : List Building :=
  bs.filter (fun b => containsD b.unit_data u)

/-- Lines 880-889: the speed factor list over the capable set. -/
def speedFactors (bs : List Building) (u : ℕ) : List ℚ :=
  (capableOf bs u).map (fun b => speedOf (unitTime b u))

/-- Lines 892-895: even-split fallback quotas (`total // n` plus one for the
first `total % n` buildings). -/
def evenQuotas (q : ℤ) (k : ℕ) : List ℤ :=
  (List.range k).map (fun i => q.fdiv k + (if (i : ℤ) < q.fmod k then 1 else 0))

/-- Lines 899-905: proportional quotas.  Every building but the last gets
`int(total_qty * (speed_i / total_speed))`; the last gets the running
remainder. -/
def allocQuotas (q : ℤ) (S : ℚ) : List ℚ → ℤ → List ℤ
  | [], _ => []
  | [_], remaining => [remaining]
  | s :: s2 :: rest, remaining =>
    pyInt ((q : ℚ) * (s / S)) :: allocQuotas q S (s2 :: rest) (remaining - pyInt ((q : ℚ) * (s / S)))

/-- Lines 894-908: walk the building list, handing the next quota to each
capable building; a quota is recorded only when positive (`if qty > 0`). -/
def setQuotas (u : ℕ) : List Building → List ℤ → List Building
  | [], _ => []
  | b :: bs, quotas =>
    if containsD b.unit_data u then
      match quotas with
      | [] => b :: bs
      | qv :: rest =>
        (if 0 < qv then { b with assignments := setD b.assignments u qv } else b)
          :: setQuotas u bs rest
    else b :: setQuotas u bs quotas

/-- Lines 869-908: one unit type's allocation pass over the building list. -/
def assignUnit (bs : List Building) (u : ℕ) (q : ℤ) : List Building :=
  if (capableOf bs u).isEmpty then bs
  else
    let speeds := speedFactors bs u
    let S := speeds.sum
    let quotas :=
      if S = 0 then evenQuotas q (capableOf bs u).length
      else allocQuotas q S speeds q
    setQuotas u bs quotas

/-- Lines 910-923 and 938-950: a building's estimated completion time:
build time of every assigned unit type present in `unit_data`, plus the
pre-existing queue when busy, plus 10 seconds per assigned unit type. -/
def estTime (b : Building) : ℚ :=
  (b.assignments.foldl
      (fun acc p =>
        acc + (if containsD b.unit_data p.1 then unitTime b p.1 * (p.2 : ℚ) else 0)) 0)
    + (if b.is_busy then b.queue_remaining_time else 0)
    + (if b.assignments.isEmpty then 0 else 10 * (b.assignments.length : ℚ))

/-- Lines 865-867: reset every building's assignments before planning. -/
def resetBuildings (bs : List Building) : List Building :=
  bs.map (fun b => { b with assignments := [], estimated_time := 0 })

/-- Lines 865-908: the initial (pre-balancing) allocation over the whole order. -/
def initialAlloc (bs : List Building) (order : List (ℕ × ℤ)) : List Building :=
  order.foldl (fun acc p => assignUnit acc p.1 p.2) (resetBuildings bs)

/-- Lines 910-923 / 938-950: store the estimated time on every building. -/
def withTimes (bs : List Building) : List Building :=
  bs.map (fun b => { b with estimated_time := estTime b })

/-! ### balance_distribution (autoRecruitment.py lines 930-992) -/

/-- Python `max(l)` for a nonempty list (0 on the empty list, unreached). -/
def maxQ : List ℚ → ℚ
  | [] => 0
  | [x] => x
  | x :: y :: r => max x (maxQ (y :: r))

/-- Python `min(l)` for a nonempty list (0 on the empty list, unreached). -/
def minQ : List ℚ → ℚ
  | [] => 0
  | [x] => x
  | x :: y :: r => min x (minQ (y :: r))

/-- Lines 968-974: scan the slowest building's assignment keys for the first
unit type the fastest building can also build and that holds more than 10
units; return it with its current quantity. -/
def findMovable (slowAssign : List (ℕ × ℤ)) (fast : Building) : List ℕ → Option (ℕ × ℤ)
  | [] => none
  | u :: rest =>
    if containsD fast.unit_data u then
      if (lookupD slowAssign u).getD 0 ≤ 10 then findMovable slowAssign fast rest
      else some (u, (lookupD slowAssign u).getD 0)
    else findMovable slowAssign fast rest

/-- Lines 976-984: move `min(10, current_qty - 1)` units of type `u` from the
slowest to the fastest building, deleting the source entry if it drops to 0. -/
def applyMove (slow fast : Building) (u : ℕ) (current_qty : ℤ) : Building × Building :=
  let move_qty := min 10 (current_qty - 1)
  let newQty := (lookupD slow.assignments u).getD 0 - move_qty
  let slowA := if newQty ≤ 0 then eraseD slow.assignments u else setD slow.assignments u newQty
  let fastA := setD fast.assignments u ((lookupD fast.assignments u).getD 0 + move_qty)
  ({ slow with assignments := slowA }, { fast with assignments := fastA })

/-- Lines 935-991: the bounded balancing loop, structured on the remaining
iteration count (`max_iterations = 100`); returns the unused iteration count
together with the final building list. -/
def balanceLoop (tol : ℚ) : ℕ → List Building → ℕ × List Building
  | 0, bs => (0, bs)
  | f + 1, bs =>
    let bs1 := withTimes bs
    let times := bs1.map Building.estimated_time
    if times.isEmpty then (f + 1, bs1)
    else
      let max_time := maxQ times
      let min_time := minQ times
      if max_time - min_time ≤ tol then (f + 1, bs1)
      else
        let fastest_idx := times.findIdx (fun t => t == min_time)
        let slowest_idx := times.findIdx (fun t => t == max_time)
        let fastest := bs1.getD fastest_idx default
        let slowest := bs1.getD slowest_idx default
        match findMovable slowest.assignments fastest (slowest.assignments.map Prod.fst) with
        | none => (f + 1, bs1)
        | some (u, cq) =>
          let pair := applyMove slowest fastest u cq
          balanceLoop tol f ((bs1.set slowest_idx pair.1).set fastest_idx pair.2)

/-- Lines 930-992: `balance_distribution(buildings_data, order, tolerance=1800)`. -/
def balance_distribution (bs : List Building) (tol : ℚ := 1800) : List Building :=
  (balanceLoop tol 100 bs).2

/-- Lines 857-927: `calculate_distribution`; `None` on empty inputs. -/
def calculate_distribution (bs : List Building) (order : List (ℕ × ℤ)) :
    Option (List Building) :=
  if bs.isEmpty || order.isEmpty then none
  else some (balance_distribution (withTimes (initialAlloc bs order)))

/-- Total quantity of unit type `u` assigned across a building list. -/
def sumAssigned (u : ℕ) (bs : List Building) : ℤ :=
  (bs.map (fun b => getD0 b.assignments u)).sum

/-- The completion-time skew of a distribution is within tolerance. -/
def skewOk (bs : List Building) (tol : ℚ) : Prop :=
  maxQ (bs.map estTime) - minQ (bs.map estTime) ≤ tol

/-- A single-unit-type move between the current slowest and fastest buildings
is possible (the search of lines 968-974 succeeds on the current state). -/
def movePossible (bs : List Building) : Bool :=
  if bs.isEmpty then false
  else
    let times := bs.map estTime
    let fastest := bs.getD (times.findIdx (fun t => t == minQ times)) default
    let slowest := bs.getD (times.findIdx (fun t => t == maxQ times)) default
    (findMovable slowest.assignments fastest (slowest.assignments.map Prod.fst)).isSome

/-! ### estimate_recruitment_time (autoRecruitment.py lines 157-237) -/

/-- Per-city estimate record (`estimates['by_city'][city_id]`).  Possibly
infinite times (`float('inf')`) are modelled as `none`. -/
structure CityEst where
  city_name : String := ""
  citizens_needed : ℤ := 0
  citizens_available : ℤ := 0
  growth_rate : ℚ := 0
  citizen_wait_seconds : Option ℚ := some 0
  build_time_seconds : ℚ := 0
  total_time_seconds : Option ℚ := some 0
deriving Inhabited, DecidableEq

/-- Lines 176-184: the fresh record inserted the first time a city is seen. -/
def estNewCity (resources : List (ℕ × CityResources)) (rates : List (ℕ × ℚ)) (b : Building) :
    CityEst :=
  { city_name := b.city_name
    citizens_available := ((lookupD resources b.city_id).map CityResources.citizens).getD 0
    growth_rate := (lookupD rates b.city_id).getD 0 }

/-- Lines 188-197: add one building's citizen needs and build time to its
city's record; a flat 10 seconds is added per building with assignments. -/
def estAddBuilding (r : CityEst) (b : Building) : CityEst :=
  let r1 := b.assignments.foldl
    (fun acc p =>
      if containsD b.unit_data p.1 then
        let ud := (lookupD b.unit_data p.1).getD default
        { acc with
            citizens_needed := acc.citizens_needed + ud.citizens * p.2
            build_time_seconds := acc.build_time_seconds + ud.time_seconds * (p.2 : ℚ) }
      else acc) r
  if b.assignments.isEmpty then r1
  else { r1 with build_time_seconds := r1.build_time_seconds + 10 }

/-- Lines 172-197: the grouping pass over the building list. -/
def estStep (resources : List (ℕ × CityResources)) (rates : List (ℕ × ℚ))
    (m : List (ℕ × CityEst)) (b : Building) : List (ℕ × CityEst) :=
  let base :=
    match lookupD m b.city_id with
    | some r => r
    | none => estNewCity resources rates b
  setD m b.city_id (estAddBuilding base b)

/-- Lines 203-228: citizen wait and total time of one city record
(`none` models `float('inf')`). -/
def estFinalizeCity (r : CityEst) : CityEst :=
  let wait : Option ℚ :=
    if r.citizens_needed ≤ r.citizens_available then some 0
    else if 0 < r.growth_rate then
      some (((r.citizens_needed - r.citizens_available : ℤ) : ℚ) / r.growth_rate * 3600)
    else none
  let total : Option ℚ :=
    match wait with
    | none => none
    | some w => some (w * (4 / 5) + r.build_time_seconds)
  { r with citizen_wait_seconds := wait, total_time_seconds := total }

/-- Python float `>` with `inf` modelled as `none`. -/
def oGT : Option ℚ → Option ℚ → Bool
  | none, none => false
  | none, some _ => true
  | some _, none => false
  | some a, some b => b < a

/-- The result record of `estimate_recruitment_time`. -/
structure Estimates where
  by_city : List (ℕ × CityEst) := []
  total_time_seconds : Option ℚ := some 0
  bottleneck : Option ℕ := none
deriving Inhabited, DecidableEq

/-- Lines 230-232: track the running maximum total time and its bottleneck
city (`if total > max_total`). -/
def estMaxStep (acc : Option ℚ × Option ℕ) (p : ℕ × CityEst) : Option ℚ × Option ℕ :=
  if oGT p.2.total_time_seconds acc.1 then (p.2.total_time_seconds, some p.1) else acc

/-- Lines 157-237: `estimate_recruitment_time(buildings_data, city_resources,
city_growth_rates)`. -/
def estimate_recruitment_time (bs : List Building) (resources : List (ℕ × CityResources))
    (rates : List (ℕ × ℚ)) : Estimates :=
  let m := bs.foldl (estStep resources rates) []
  let m2 := m.map (fun p => (p.1, estFinalizeCity p.2))
  let acc := m2.foldl estMaxStep (some 0, none)
  { by_city := m2, total_time_seconds := acc.1, bottleneck := acc.2 }

/-! ### execute_recruitment_loop: one cycle (autoRecruitment.py lines 1186-1428)

Network effects (city snapshot fetches, busy re-polls, order submission) are
modelled as inputs: `cityRes` is the snapshot fetched this cycle, a building's
`is_busy` field holds its post-refresh busy state, and submissions succeed. -/

/-- Line 1187: `remaining_assignments = assignments.copy()` for every building. -/
def initRemaining (bs : List Building) : List Building :=
  bs.map (fun b => { b with remaining_assignments := b.assignments })

/-- Lines 1194-1201: total units remaining across all buildings. -/
def totalRemaining (bs : List Building) : ℤ :=
  (bs.map (fun b => sumVals b.remaining_assignments)).sum

/-- Lines 1287-1309: cap a quantity by one resource dimension
(`max_possible = min(max_possible, available // cost)` when the cost is positive). -/
def capBy (cur avail cost : ℤ) : ℤ :=
  if 0 < cost then min cur (avail.fdiv cost) else cur

/-- Lines 1316-1321: deduct one unit type's cost from a working snapshot. -/
def deductRes (avail : CityResources) (d : UnitData) (n : ℤ) : CityResources :=
  { citizens := avail.citizens - d.citizens * n
    wood := avail.wood - d.wood * n
    wine := avail.wine - d.wine * n
    marble := avail.marble - d.marble * n
    crystal := avail.crystal - d.crystal * n
    sulfur := avail.sulfur - d.sulfur * n }

/-- Lines 1278-1321: the greedy per-building affordability scan, in
remaining-assignment iteration order; returns the per-type recruitable
quantities, their total, and the decremented working snapshot. -/
def greedyRecruit (ud : List (ℕ × UnitData)) :
    List (ℕ × ℤ) → CityResources → List (ℕ × ℤ) × ℤ × CityResources
  | [], avail => ([], 0, avail)
  | (u, qty_needed) :: rest, avail =>
    if containsD ud u then
      let d := (lookupD ud u).getD default
      let m1 := capBy qty_needed avail.citizens d.citizens
      let m2 := capBy m1 avail.wood d.wood
      let m3 := capBy m2 avail.wine d.wine
      let m4 := capBy m3 avail.marble d.marble
      let m5 := capBy m4 avail.crystal d.crystal
      let m6 := capBy m5 avail.sulfur d.sulfur
      if 0 < m6 then
        let out := greedyRecruit ud rest (deductRes avail d m6)
        ((u, m6) :: out.1, m6 + out.2.1, out.2.2)
      else greedyRecruit ud rest avail
    else greedyRecruit ud rest avail

/-- One entry of `buildings_to_recruit` (lines 1335-1341); the building is
identified by its index in the distribution list. -/
structure RecruitInfo where
  bIdx : ℕ := 0
  to_recruit : List (ℕ × ℤ) := []
  total : ℤ := 0
  threshold : ℤ := 0
  building_remaining : ℤ := 0
deriving Inhabited, DecidableEq

/-- Lines 1326-1333: deduct a committed building's costs from the shared
per-city pool. -/
def deductCity (avail : CityResources) (ud : List (ℕ × UnitData)) (cr : List (ℕ × ℤ)) :
    CityResources :=
  cr.foldl (fun a p => deductRes a ((lookupD ud p.1).getD default) p.2) avail

/-- Lines 1250-1342: process one building within a cycle: skip it when it has
no remaining work or is (still) busy; otherwise compute the 20% threshold and
the greedy affordable total, and commit only when the threshold is met. -/
def cycleStep (st : List RecruitInfo × List (ℕ × CityResources)) (p : ℕ × Building) :
    List RecruitInfo × List (ℕ × CityResources) :=
  let i := p.1
  let b := p.2
  if b.remaining_assignments.isEmpty then st
  else if b.is_busy then st
  else
    let avail := (lookupD st.2 b.city_id).getD default
    let building_total_remaining := sumVals b.remaining_assignments
    let threshold := max 1 (pyInt ((building_total_remaining : ℚ) * (1 / 5)))
    let g := greedyRecruit b.unit_data b.remaining_assignments avail
    if threshold ≤ g.2.1 then
      (st.1 ++ [{ bIdx := i, to_recruit := g.1, total := g.2.1, threshold := threshold,
                  building_remaining := building_total_remaining }],
       setD st.2 b.city_id (deductCity avail b.unit_data g.1))
    else st

/-- Lines 1247-1342: collect this cycle's commits over the whole distribution,
threading the shared city resource pool in building-iteration order. -/
def cycleCollect (bs : List Building) (cityRes : List (ℕ × CityResources)) :
    List RecruitInfo × List (ℕ × CityResources) :=
  bs.enum.foldl cycleStep ([], cityRes)

/-- Lines 1416-1422: decrement a building's remaining assignments by the
submitted quantities, deleting entries that reach zero, and mark it busy. -/
def applyRecruit (b : Building) (to_recruit : List (ℕ × ℤ)) : Building :=
  { b with
    remaining_assignments :=
      to_recruit.foldl
        (fun m p =>
          let nv := (lookupD m p.1).getD 0 - p.2
          if nv ≤ 0 then eraseD m p.1 else setD m p.1 nv)
        b.remaining_assignments
    is_busy := true }

/-- Lines 1369-1425: apply every commit of the cycle to the distribution. -/
def applyAll (bs : List Building) (recs : List RecruitInfo) : List Building :=
  recs.foldl (fun acc r => acc.set r.bIdx (applyRecruit (acc.getD r.bIdx default) r.to_recruit)) bs

/-- One full cycle body (after the completion check): collect commits against
the fetched snapshot and apply them. -/
def runCycle (bs : List Building) (cityRes : List (ℕ × CityResources)) :
    List Building × List RecruitInfo :=
  let c := cycleCollect bs cityRes
  (applyAll bs c.1, c.1)

/-- The loop's observable outcome for one iteration: either the completion
notice is emitted and the loop terminates (lines 1203-1206), or the cycle
body runs and the loop continues. -/
inductive CycleResult where
  | completed : CycleResult
  | continues : List Building → List RecruitInfo → CycleResult
deriving DecidableEq

/-- Lines 1193-1428: one iteration of `while True`. -/
def loopStep (bs : List Building) (cityRes : List (ℕ × CityResources)) : CycleResult :=
  if totalRemaining bs ≤ 0 then .completed
  else
    let r := runCycle bs cityRes
    .continues r.1 r.2

/-- The execution-loop data invariant (claim C5): every building's remaining
map has unique keys, is entrywise non-negative, and is entrywise bounded by
the planned assignments. -/
def RemInv (bs : List Building) : Prop :=
  ∀ b ∈ bs, (b.remaining_assignments.map Prod.fst).Nodup ∧
    ∀ w, 0 ≤ getD0 b.remaining_assignments w ∧
      getD0 b.remaining_assignments w ≤ getD0 b.assignments w

/-- The capability invariant (claim C3): a building's assignments only ever
mention unit types present in its capability map. -/
def CapInv (bs : List Building) : Prop :=
  ∀ b ∈ bs, ∀ w, containsD b.assignments w = true → containsD b.unit_data w = true

/-- Two buildings agree on their capability map and on their assignment of
unit type `u` (used to track that later allocation passes for other unit
types do not disturb `u`). -/
def KeepsU (u : ℕ) (b b2 : Building) : Prop :=
  b2.unit_data = b.unit_data ∧ lookupD b2.assignments u = lookupD b.assignments u

/-! ### Specification-side definitions (for refinement comparisons)

These two definitions are written from the specification's words, not from
the source, so that theorems can compare the code's behaviour against the
spec's stated formulas. -/

/-- From the spec: the initial allocation gives capable building `j` (in
iteration order) `floor(total * speed_j / sum(speeds))` units for every `j`
but the last, and the last capable building receives the remainder. -/
def spec_initial_quota (q : ℤ) (speeds : List ℚ) (j : ℕ) : ℤ :=
  if j + 1 = speeds.length then
    q - ((speeds.take (speeds.length - 1)).map (fun s => ⌊(q : ℚ) * s / speeds.sum⌋)).sum
  else ⌊(q : ℚ) * speeds.getD j 0 / speeds.sum⌋

/-- From the spec (claim C8): a city's build time is the sum over that city's
buildings of (per-unit time × qty) plus 10 seconds per distinct unit type per
building. -/
def spec_city_build_time (bs : List Building) (c : ℕ) : ℚ :=
  ((bs.filter (fun b => b.city_id == c)).map (fun b =>
    (b.assignments.foldl
        (fun acc p =>
          acc + (if containsD b.unit_data p.1 then unitTime b p.1 * (p.2 : ℚ) else 0)) 0)
      + 10 * (b.assignments.length : ℚ))).sum

/-- One building's contribution to its city's build time in
`estimate_recruitment_time` (lines 188-197): per-unit time × qty summed over
assigned types present in `unit_data`, plus a flat 10 seconds when the
building has any assignment. -/
def perBuildingTime (b : Building) : ℚ :=
  (b.assignments.foldl
      (fun acc p =>
        acc + (if containsD b.unit_data p.1 then unitTime b p.1 * (p.2 : ℚ) else 0)) 0)
    + (if b.assignments.isEmpty then 0 else 10)

/-- The code's actual per-city build time: the same per-building sum but with
a flat 10 seconds per building with a non-empty assignment (lines 188-197). -/
def code_city_build_time (bs : List Building) (c : ℕ) : ℚ :=
  ((bs.filter (fun b => b.city_id == c)).map perBuildingTime).sum

/-! ### Concrete sample inputs used by witnesses and counterexamples -/

/-- A 10-seconds-per-unit building (spec scenario, claim C2). -/
def sampleB1 : Building :=
  { city_id := 1, unit_data := [(1, { time_seconds := 10 })] }

/-- A 20-seconds-per-unit building (spec scenario, claim C2). -/
def sampleB2 : Building :=
  { city_id := 1, unit_data := [(1, { time_seconds := 20 })] }

/-- The spec scenario order: 100 units of unit type 1. -/
def sampleOrder : List (ℕ × ℤ) := [(1, 100)]

/-- The full planner output on the two sample buildings for an order of 10
units: the 6/4 proportional split with completion times 70 s and 90 s (skew
20 s, within tolerance, so balancing exits immediately). -/
def c1Out : List Building :=
  [{ sampleB1 with assignments := [(1, 6)], estimated_time := 70 },
   { sampleB2 with assignments := [(1, 4)], estimated_time := 90 }]

/-- A heavily loaded building: 2500 slow units assigned. -/
def heavyA : Building :=
  { unit_data := [(1, { time_seconds := 10 })], assignments := [(1, 2500)] }

/-- An idle building capable of the same unit type. -/
def heavyB : Building :=
  { unit_data := [(1, { time_seconds := 10 })] }

/-- A slow building holding only 5 units of an overlapping type. -/
def smallS : Building :=
  { unit_data := [(1, { time_seconds := 1000 })], assignments := [(1, 5)] }

/-- An idle building capable of the same unit type as `smallS`. -/
def smallF : Building :=
  { unit_data := [(1, { time_seconds := 1000 })] }

/-- A building holding 15 units of unit type 1 (movable: more than 10). -/
def elevenS : Building :=
  { unit_data := [(1, { time_seconds := 1000 })], assignments := [(1, 15)] }

/-- Oscillation witness (claim C6): 21 units at 190 s each, completion time
4000 s. -/
def oscA : Building :=
  { unit_data := [(1, { time_seconds := 190 })], assignments := [(1, 21)] }

/-- Oscillation witness (claim C6): 11 units at 190 s each, completion time
2100 s. -/
def oscB : Building :=
  { unit_data := [(1, { time_seconds := 190 })], assignments := [(1, 11)] }

/-- The state reached from `[oscA, oscB]` after one balancing iteration. -/
def oscT1 : List Building :=
  [{ oscA with assignments := [(1, 11)], estimated_time := 4000 },
   { oscB with assignments := [(1, 21)], estimated_time := 2100 }]

/-- The state reached from `oscT1` after one balancing iteration; one more
iteration leads back to `oscT1`. -/
def oscT2 : List Building :=
  [{ oscA with assignments := [(1, 21)], estimated_time := 2100 },
   { oscB with assignments := [(1, 11)], estimated_time := 4000 }]

/-- A building with two assigned unit types in one city (claim C8). -/
def twoUnitB : Building :=
  { city_id := 1,
    unit_data := [(1, { time_seconds := 5 }), (2, { time_seconds := 7 })],
    assignments := [(1, 1), (2, 1)] }

/-- A building demanding 80 citizens in a 50-citizen city (claim C9 scenario). -/
def deficitB : Building :=
  { city_id := 1, unit_data := [(1, { citizens := 40 })], assignments := [(1, 2)] }

/-- The city record computed for `[twoUnitB]` with no resource data. -/
def cityRec8 : CityEst :=
  { citizen_wait_seconds := some 0, build_time_seconds := 22, total_time_seconds := some 22 }

/-- A 78-citizen snapshot for `deficitB`'s city (deficit 2). -/
def citySnap9 : List (ℕ × CityResources) := [(1, { citizens := 78 })]

/-- A growth rate of 400 citizens per hour for `deficitB`'s city. -/
def growth9 : List (ℕ × ℚ) := [(1, 400)]

/-- The city record computed for `[deficitB]` against `citySnap9`/`growth9`:
deficit 2 at 400/h gives an 18 s citizen wait. -/
def cityRec9 : CityEst :=
  { citizens_needed := 80, citizens_available := 78, growth_rate := 400,
    citizen_wait_seconds := some 18, build_time_seconds := 10,
    total_time_seconds := some (18 * (4 / 5) + 10) }

/-- A building mid-execution with 10 units remaining (claims C4, C5). -/
def cycleB : Building :=
  { city_id := 1, unit_data := [(1, { citizens := 2, wood := 3 })],
    assignments := [(1, 10)], remaining_assignments := [(1, 10)] }

/-- An ample city snapshot for `cycleB`: 4 units affordable. -/
def cycleResOk : List (ℕ × CityResources) := [(1, { citizens := 8, wood := 100 })]

/-- The commit record produced for `cycleB` against `cycleResOk`. -/
def cycleRec : RecruitInfo :=
  { bIdx := 0, to_recruit := [(1, 4)], total := 4, threshold := 2, building_remaining := 10 }

/-- A scarce city snapshot for `cycleB`: only 1 unit affordable (below the
20% threshold of 2). -/
def cycleResLow : List (ℕ × CityResources) := [(1, { citizens := 3, wood := 100 })]

/-! ### Dictionary lemmas -/

theorem lookupD_cons {α : Type} (p : ℕ × α) (m : List (ℕ × α)) (k : ℕ) :
    lookupD (p :: m) k = if p.1 = k then some p.2 else lookupD m k := by
  simp only [lookupD, List.find?_cons]
  by_cases h : p.1 = k
  · simp [h]
  · have hb : (p.1 == k) = false := by simp [h]
    simp [hb, h, lookupD]

theorem containsD_cons {α : Type} (p : ℕ × α) (m : List (ℕ × α)) (k : ℕ) :
    containsD (p :: m) k = (p.1 == k || containsD m k) := by
  simp [containsD]

theorem lookupD_setD_self {α : Type} (m : List (ℕ × α)) (k : ℕ) (v : α) :
    lookupD (setD m k v) k = some v := by
  induction m with
  | nil => simp [setD, lookupD_cons]
  | cons p rest ih =>
    by_cases h : p.1 = k
    · simp [setD, h, lookupD_cons]
    · simp only [setD, beq_iff_eq, h, if_false]
      rw [lookupD_cons, if_neg h, ih]

theorem lookupD_setD_ne {α : Type} (m : List (ℕ × α)) (k w : ℕ) (v : α) (h : w ≠ k) :
    lookupD (setD m k v) w = lookupD m w := by
  induction m with
  | nil => simp [setD, lookupD_cons, (Ne.symm h : k ≠ w), lookupD]
  | cons p rest ih =>
    by_cases hp : p.1 = k
    · simp only [setD, beq_iff_eq, hp, if_true]
      rw [lookupD_cons, lookupD_cons, if_neg (by simp [Ne.symm h]), if_neg (by rw [hp]; exact Ne.symm h)]
    · simp only [setD, beq_iff_eq, hp, if_false]
      rw [lookupD_cons, lookupD_cons, ih]

theorem lookupD_eraseD_self {α : Type} (m : List (ℕ × α)) (k : ℕ) :
    lookupD (eraseD m k) k = none := by
  induction m with
  | nil => rfl
  | cons p rest ih =>
    by_cases hp : p.1 = k
    · simpa [eraseD, List.filter_cons, hp] using ih
    · simpa [eraseD, List.filter_cons, hp, lookupD_cons] using ih

theorem lookupD_eraseD_ne {α : Type} (m : List (ℕ × α)) (k w : ℕ) (h : w ≠ k) :
    lookupD (eraseD m k) w = lookupD m w := by
  induction m with
  | nil => rfl
  | cons p rest ih =>
    by_cases hp : p.1 = k
    · rw [eraseD, List.filter_cons, if_neg (by simp [hp])]
      rw [lookupD_cons, if_neg (by rw [hp]; exact Ne.symm h)]
      exact ih
    · rw [eraseD, List.filter_cons, if_pos (by simp [hp])]
      rw [lookupD_cons, lookupD_cons]
      exact congrArg _ ih

theorem containsD_iff_lookupD {α : Type} (m : List (ℕ × α)) (k : ℕ) :
    containsD m k = true ↔ (lookupD m k).isSome = true := by
  induction m with
  | nil => simp [containsD, lookupD]
  | cons p rest ih =>
    rw [containsD_cons, lookupD_cons]
    by_cases hp : p.1 = k
    · simp [hp]
    · simp only [hp, if_false, beq_iff_eq, Bool.or_eq_true, false_or]
      exact ih

theorem lookupD_eq_none_of_containsD {α : Type} (m : List (ℕ × α)) (k : ℕ)
    (h : containsD m k = false) : lookupD m k = none := by
  cases hl : lookupD m k with
  | none => rfl
  | some v =>
    have : containsD m k = true := (containsD_iff_lookupD m k).2 (by simp [hl])
    rw [this] at h
    exact absurd h (by simp)

theorem containsD_setD {α : Type} (m : List (ℕ × α)) (k w : ℕ) (v : α)
    (h : containsD (setD m k v) w = true) : w = k ∨ containsD m w = true := by
  by_cases hw : w = k
  · exact Or.inl hw
  · right
    rw [containsD_iff_lookupD] at h ⊢
    rwa [lookupD_setD_ne m k w v hw] at h

theorem containsD_eraseD {α : Type} (m : List (ℕ × α)) (k w : ℕ)
    (h : containsD (eraseD m k) w = true) : containsD m w = true := by
  by_cases hw : w = k
  · rw [containsD_iff_lookupD, hw, lookupD_eraseD_self] at h
    exact absurd h (by simp)
  · rw [containsD_iff_lookupD] at h ⊢
    rwa [lookupD_eraseD_ne m k w hw] at h

theorem lookupD_eq_none_of_not_mem_keys {α : Type} (m : List (ℕ × α)) (k : ℕ)
    (h : k ∉ m.map Prod.fst) : lookupD m k = none := by
  apply lookupD_eq_none_of_containsD
  cases hc : containsD m k with
  | false => rfl
  | true =>
    obtain ⟨p, hp, hpk⟩ := List.any_eq_true.1 hc
    exact absurd (List.mem_map.2 ⟨p, hp, by simpa using hpk⟩) h

theorem getD0_setD_self (m : List (ℕ × ℤ)) (k : ℕ) (v : ℤ) :
    getD0 (setD m k v) k = v := by
  rw [getD0, lookupD_setD_self]; rfl

theorem getD0_setD_ne (m : List (ℕ × ℤ)) (k w : ℕ) (v : ℤ) (h : w ≠ k) :
    getD0 (setD m k v) w = getD0 m w := by
  rw [getD0, getD0, lookupD_setD_ne m k w v h]

theorem getD0_eraseD_self (m : List (ℕ × ℤ)) (k : ℕ) :
    getD0 (eraseD m k) k = 0 := by
  rw [getD0, lookupD_eraseD_self]; rfl

theorem getD0_eraseD_ne (m : List (ℕ × ℤ)) (k w : ℕ) (h : w ≠ k) :
    getD0 (eraseD m k) w = getD0 m w := by
  rw [getD0, getD0, lookupD_eraseD_ne m k w h]

theorem sumVals_setD (m : List (ℕ × ℤ)) (k : ℕ) (v : ℤ) :
    sumVals (setD m k v) = sumVals m - getD0 m k + v := by
  induction m with
  | nil => simp [setD, sumVals, getD0, lookupD]
  | cons p rest ih =>
    by_cases hp : p.1 = k
    · simp only [setD, beq_iff_eq, hp, if_true, sumVals, List.map_cons, List.sum_cons,
        getD0, lookupD_cons]
      simp only [hp, if_pos rfl, Option.getD_some]
      ring
    · simp only [setD, beq_iff_eq, hp, if_false, sumVals, List.map_cons, List.sum_cons,
        getD0, lookupD_cons, if_neg hp]
      have := ih
      simp only [sumVals, getD0] at this
      rw [this]; ring

theorem sumVals_eraseD (m : List (ℕ × ℤ)) (k : ℕ) (hnd : (m.map Prod.fst).Nodup) :
    sumVals (eraseD m k) = sumVals m - getD0 m k := by
  induction m with
  | nil => simp [eraseD, sumVals, getD0, lookupD]
  | cons p rest ih =>
    simp only [List.map_cons, List.nodup_cons] at hnd
    by_cases hp : p.1 = k
    · rw [eraseD, List.filter_cons, if_neg (by simp [hp])]
      have hrest : eraseD rest k = rest := by
        apply List.filter_eq_self.2
        intro q hq
        simp only [bne_iff_ne, ne_eq]
        intro hqk
        exact hnd.1 (by rw [← hp, ← hqk] at *; exact List.mem_map.2 ⟨q, hq, rfl⟩)
      rw [eraseD] at hrest
      rw [hrest]
      simp only [sumVals, List.map_cons, List.sum_cons, getD0, lookupD_cons, if_pos hp,
        Option.getD_some]
      ring
    · rw [eraseD, List.filter_cons, if_pos (by simp [hp])]
      simp only [sumVals, List.map_cons, List.sum_cons, getD0, lookupD_cons, if_neg hp]
      have := ih hnd.2
      simp only [sumVals, getD0, eraseD] at this
      rw [this]; ring

theorem keys_setD_subset {α : Type} (m : List (ℕ × α)) (k : ℕ) (v : α) (w : ℕ)
    (h : w ∈ (setD m k v).map Prod.fst) : w ∈ m.map Prod.fst ∨ w = k := by
  induction m with
  | nil => simpa [setD] using h
  | cons p rest ih =>
    by_cases hp : p.1 = k
    · simp only [setD, beq_iff_eq, hp, if_true, List.map_cons, List.mem_cons] at h
      rcases h with h | h
      · exact Or.inr h
      · exact Or.inl (by simp [h])
    · simp only [setD, beq_iff_eq, hp, if_false, List.map_cons, List.mem_cons] at h
      rcases h with h | h
      · exact Or.inl (by simp [h])
      · rcases ih h with h2 | h2
        · exact Or.inl (by simp [h2])
        · exact Or.inr h2

theorem keysND_setD {α : Type} (m : List (ℕ × α)) (k : ℕ) (v : α)
    (hnd : (m.map Prod.fst).Nodup) : ((setD m k v).map Prod.fst).Nodup := by
  induction m with
  | nil => simp [setD]
  | cons p rest ih =>
    simp only [List.map_cons, List.nodup_cons] at hnd
    by_cases hp : p.1 = k
    · simp only [setD, beq_iff_eq, hp, if_true, List.map_cons, List.nodup_cons]
      exact ⟨by rw [← hp]; exact hnd.1, hnd.2⟩
    · simp only [setD, beq_iff_eq, hp, if_false, List.map_cons, List.nodup_cons]
      refine ⟨fun hmem => ?_, ih hnd.2⟩
      rcases keys_setD_subset rest k v p.1 hmem with h | h
      · exact hnd.1 h
      · exact hp h

theorem keysND_eraseD {α : Type} (m : List (ℕ × α)) (k : ℕ)
    (hnd : (m.map Prod.fst).Nodup) : ((eraseD m k).map Prod.fst).Nodup := by
  have hsub : List.Sublist ((eraseD m k).map Prod.fst) (m.map Prod.fst) :=
    List.Sublist.map Prod.fst (List.filter_sublist m)
  exact hsub.nodup hnd

theorem sumVals_nonneg (m : List (ℕ × ℤ)) (hnd : (m.map Prod.fst).Nodup)
    (h : ∀ w, 0 ≤ getD0 m w) : 0 ≤ sumVals m := by
  induction m with
  | nil => simp [sumVals]
  | cons p rest ih =>
    simp only [List.map_cons, List.nodup_cons] at hnd
    simp only [sumVals, List.map_cons, List.sum_cons]
    have hp : 0 ≤ p.2 := by
      have := h p.1
      rwa [getD0, lookupD_cons, if_pos rfl, Option.getD_some] at this
    have hrest : 0 ≤ sumVals rest := by
      apply ih hnd.2
      intro w
      by_cases hw : w = p.1
      · rw [hw, getD0, lookupD_eq_none_of_not_mem_keys rest p.1 hnd.1]; rfl
      · have := h w
        rwa [getD0, lookupD_cons, if_neg (Ne.symm hw)] at this
    have := add_le_add hp hrest
    simpa [sumVals] using this

/-! ### pyInt, maxQ, minQ, sums over `List.set` -/

theorem pyInt_of_nonneg (q : ℚ) (h : 0 ≤ q) : pyInt q = ⌊q⌋ := by
  rw [pyInt, if_pos h, Rat.floor_def', Rat.floor_def]

theorem pyInt_nonneg (q : ℚ) (h : 0 ≤ q) : 0 ≤ pyInt q := by
  rw [pyInt_of_nonneg q h]
  exact_mod_cast Int.le_floor.2 (by simpa using h)

theorem pyInt_le (q : ℚ) (h : 0 ≤ q) : (pyInt q : ℚ) ≤ q := by
  rw [pyInt_of_nonneg q h]
  exact Int.floor_le q

theorem le_maxQ (l : List ℚ) (a : ℚ) (h : a ∈ l) : a ≤ maxQ l := by
  induction l with
  | nil => cases h
  | cons x rest ih =>
    cases rest with
    | nil => simp only [List.mem_singleton] at h; simp [maxQ, h]
    | cons y r =>
      rcases List.mem_cons.1 h with h1 | h1
      · rw [h1, maxQ]; exact le_max_left _ _
      · rw [maxQ]; exact le_trans (ih h1) (le_max_right _ _)

theorem maxQ_mem (l : List ℚ) (h : l ≠ []) : maxQ l ∈ l := by
  induction l with
  | nil => exact absurd rfl h
  | cons x rest ih =>
    cases rest with
    | nil => simp [maxQ]
    | cons y r =>
      rw [maxQ]
      rcases max_choice x (maxQ (y :: r)) with h1 | h1
      · rw [h1]; exact List.mem_cons_self _ _
      · rw [h1]; exact List.mem_cons_of_mem _ (ih (by simp))

theorem minQ_le (l : List ℚ) (a : ℚ) (h : a ∈ l) : minQ l ≤ a := by
  induction l with
  | nil => cases h
  | cons x rest ih =>
    cases rest with
    | nil => simp only [List.mem_singleton] at h; simp [minQ, h]
    | cons y r =>
      rcases List.mem_cons.1 h with h1 | h1
      · rw [h1, minQ]; exact min_le_left _ _
      · rw [minQ]; exact le_trans (min_le_right _ _) (ih h1)

theorem minQ_mem (l : List ℚ) (h : l ≠ []) : minQ l ∈ l := by
  induction l with
  | nil => exact absurd rfl h
  | cons x rest ih =>
    cases rest with
    | nil => simp [minQ]
    | cons y r =>
      rw [minQ]
      rcases min_choice x (minQ (y :: r)) with h1 | h1
      · rw [h1]; exact List.mem_cons_self _ _
      · rw [h1]; exact List.mem_cons_of_mem _ (ih (by simp))

theorem sum_map_set {α : Type} {M : Type} [AddCommGroup M] (l : List α) (i : ℕ) (x d : α)
    (f : α → M) (h : i < l.length) :
    ((l.set i x).map f).sum = (l.map f).sum - f (l.getD i d) + f x := by
  induction l generalizing i with
  | nil => simp at h
  | cons p rest ih =>
    cases i with
    | zero =>
      simp only [List.set, List.map_cons, List.sum_cons, List.getD_cons_zero]
      abel
    | succ j =>
      simp only [List.set, List.map_cons, List.sum_cons, List.getD_cons_succ]
      rw [ih j (by simpa using h)]
      abel

theorem getD_set_ne {α : Type} (l : List α) (i j : ℕ) (x d : α) (h : i ≠ j) :
    (l.set i x).getD j d = l.getD j d := by
  by_cases hj : j < l.length
  · rw [List.getD_eq_getElem l d hj,
      List.getD_eq_getElem (l.set i x) d (by simpa using hj)]
    exact List.getElem_set_ne h _
  · rw [List.getD_eq_default _ _ (by simpa using Nat.le_of_not_lt hj),
      List.getD_eq_default _ _ (Nat.le_of_not_lt hj)]

theorem getD_set_self {α : Type} (l : List α) (i : ℕ) (x d : α) (h : i < l.length) :
    (l.set i x).getD i d = x := by
  rw [List.getD_eq_getElem (l.set i x) d (by simpa using h)]
  exact List.getElem_set_self _

/-! ### Claim C10: positive total speed, proportional branch always taken -/

theorem speedOf_pos (t : ℚ) : 0 < speedOf t := by
  rw [speedOf]
  by_cases h : 0 < t
  · rw [if_pos h]; positivity
  · rw [if_neg h]; norm_num

theorem speedFactors_sum_pos (bs : List Building) (u : ℕ) (h : capableOf bs u ≠ []) :
    0 < (speedFactors bs u).sum := by
  apply List.sum_pos
  · intro s hs
    obtain ⟨b, _, rfl⟩ := List.mem_map.1 hs
    exact speedOf_pos _
  · simpa [speedFactors] using h

/-- C10: whenever the capable set for a unit type is non-empty the computed
total speed is strictly positive, so the even-split fallback branch guarded
by `total_speed == 0` is not taken and `assignUnit` reduces to the
proportional allocation. -/
theorem C10_total_speed_positive (bs : List Building) (u : ℕ) (q : ℤ)
    (h : capableOf bs u ≠ []) :
    0 < (speedFactors bs u).sum ∧
      assignUnit bs u q =
        setQuotas u bs (allocQuotas q (speedFactors bs u).sum (speedFactors bs u) q) := by
  have hS := speedFactors_sum_pos bs u h
  refine ⟨hS, ?_⟩
  rw [assignUnit, if_neg (by simpa [List.isEmpty_iff] using h)]
  simp only [if_neg (ne_of_gt hS)]

/-- Witness for C10 at the two-building sample. -/
theorem C10_total_speed_positive_witness :
    capableOf [sampleB1, sampleB2] 1 ≠ [] ∧
      0 < (speedFactors [sampleB1, sampleB2] 1).sum := by
  have h : capableOf [sampleB1, sampleB2] 1 ≠ [] := by decide
  exact ⟨h, (C10_total_speed_positive [sampleB1, sampleB2] 1 100 h).1⟩

/-! ### Claim C4: the 20% threshold guard of the execution cycle -/

theorem cycleCollect_mem (l : List (ℕ × Building)) (st : List RecruitInfo × List (ℕ × CityResources))
    (r : RecruitInfo) (hr : r ∈ (l.foldl cycleStep st).1) :
    r ∈ st.1 ∨
      (r.threshold = max 1 (pyInt ((r.building_remaining : ℚ) * (1 / 5))) ∧
        r.threshold ≤ r.total) := by
  induction l generalizing st with
  | nil => exact Or.inl hr
  | cons p rest ih =>
    rw [List.foldl_cons] at hr
    rcases ih (cycleStep st p) hr with h | h
    · rw [cycleStep] at h
      by_cases h1 : p.2.remaining_assignments.isEmpty
      · rw [if_pos h1] at h; exact Or.inl h
      · rw [if_neg h1] at h
        by_cases h2 : p.2.is_busy
        · rw [if_pos h2] at h; exact Or.inl h
        · rw [if_neg h2] at h
          by_cases h3 : max 1 (pyInt ((sumVals p.2.remaining_assignments : ℚ) * (1 / 5))) ≤
              (greedyRecruit p.2.unit_data p.2.remaining_assignments
                ((lookupD st.2 p.2.city_id).getD default)).2.1
          · rw [if_pos h3] at h
            simp only [List.mem_append, List.mem_singleton] at h
            rcases h with h | h
            · exact Or.inl h
            · subst h; exact Or.inr ⟨rfl, h3⟩
          · rw [if_neg h3] at h; exact Or.inl h
    · exact Or.inr h

/-- C4: every commit collected in a cycle satisfies
`threshold ≤ total_can_recruit` with
`threshold = max(1, int(0.20 * building_total_remaining))`, and a non-busy
building with remaining work whose greedy affordable total falls below that
threshold is skipped entirely (the cycle state is left unchanged). -/
theorem C4_threshold_guard (bs : List Building) (cityRes : List (ℕ × CityResources))
    (st : List RecruitInfo × List (ℕ × CityResources)) (i : ℕ) (b : Building) :
    (∀ r ∈ (cycleCollect bs cityRes).1,
        r.threshold = max 1 (pyInt ((r.building_remaining : ℚ) * (1 / 5))) ∧
          r.threshold ≤ r.total) ∧
      (b.remaining_assignments.isEmpty = false → b.is_busy = false →
        (greedyRecruit b.unit_data b.remaining_assignments
            ((lookupD st.2 b.city_id).getD default)).2.1 <
          max 1 (pyInt ((sumVals b.remaining_assignments : ℚ) * (1 / 5))) →
        cycleStep st (i, b) = st) := by
  constructor
  · intro r hr
    rcases cycleCollect_mem bs.enum ([], cityRes) r hr with h | h
    · simp at h
    · exact h
  · intro h1 h2 h3
    rw [cycleStep, if_neg (by simp [h1]), if_neg (by simp [h2]), if_neg (not_le.2 h3)]

/-- Witness for C4: a concrete committed building meets its threshold, and a
concrete below-threshold building is skipped. -/
theorem C4_threshold_guard_witness :
    cycleRec ∈ (cycleCollect [cycleB] cycleResOk).1 ∧
      (cycleRec.threshold = max 1 (pyInt ((cycleRec.building_remaining : ℚ) * (1 / 5))) ∧
        cycleRec.threshold ≤ cycleRec.total) ∧
      cycleStep ([], cycleResLow) (0, cycleB) = ([], cycleResLow) := by
  have hmem : cycleRec ∈ (cycleCollect [cycleB] cycleResOk).1 := by
    with_unfolding_all decide
  refine ⟨hmem, (C4_threshold_guard [cycleB] cycleResOk ([], cycleResLow) 0 cycleB).1 _ hmem, ?_⟩
  exact (C4_threshold_guard [cycleB] cycleResOk ([], cycleResLow) 0 cycleB).2
    (by with_unfolding_all decide) (by with_unfolding_all decide) (by with_unfolding_all decide)

/-! ### Claim C7: what the balancer actually moves -/

theorem beqQ (a b : ℚ) (h : a ≠ b) : (a == b) = false := by
  simp [beq_iff_eq, h]

theorem findMovable_some (sa : List (ℕ × ℤ)) (fast : Building) (keys : List ℕ) (u : ℕ)
    (cq : ℤ) (h : findMovable sa fast keys = some (u, cq)) :
    u ∈ keys ∧ containsD fast.unit_data u = true ∧ (lookupD sa u).getD 0 = cq ∧ 10 < cq := by
  induction keys with
  | nil => simp [findMovable] at h
  | cons k rest ih =>
    rw [findMovable] at h
    by_cases h1 : containsD fast.unit_data k
    · rw [if_pos h1] at h
      by_cases h2 : (lookupD sa k).getD 0 ≤ 10
      · rw [if_pos h2] at h
        obtain ⟨hm, rest⟩ := ih h
        exact ⟨List.mem_cons_of_mem _ hm, rest⟩
      · rw [if_neg h2] at h
        simp only [Option.some.injEq, Prod.mk.injEq] at h
        obtain ⟨rfl, hv⟩ := h
        exact ⟨List.mem_cons_self _ _, h1, hv, by omega⟩
    · rw [if_neg (by simpa using h1)] at h
      obtain ⟨hm, rest⟩ := ih h
      exact ⟨List.mem_cons_of_mem _ hm, rest⟩

theorem findMovable_none (sa : List (ℕ × ℤ)) (fast : Building) (keys : List ℕ)
    (h : ∀ w ∈ keys, containsD fast.unit_data w = false ∨ (lookupD sa w).getD 0 ≤ 10) :
    findMovable sa fast keys = none := by
  induction keys with
  | nil => rfl
  | cons k rest ih =>
    rw [findMovable]
    have hrest := ih (fun w hw => h w (List.mem_cons_of_mem _ hw))
    rcases h k (List.mem_cons_self _ _) with hk | hk
    · rw [if_neg (by simp [hk])]
      exact hrest
    · by_cases h1 : containsD fast.unit_data k
      · rw [if_pos h1, if_pos hk]
        exact hrest
      · rw [if_neg (by simpa using h1)]
        exact hrest

theorem applyMove_assignments (slow fast : Building) (u : ℕ) (cq : ℤ) (hcq : 10 < cq)
    (hl : (lookupD slow.assignments u).getD 0 = cq) :
    (applyMove slow fast u cq).1.assignments = setD slow.assignments u (cq - 10) ∧
      (applyMove slow fast u cq).2.assignments =
        setD fast.assignments u (getD0 fast.assignments u + 10) := by
  have hmin : min (10 : ℤ) (cq - 1) = 10 := min_eq_left (by omega)
  rw [applyMove]
  simp only [hmin, hl, getD0]
  rw [if_neg (by omega)]
  trivial

/-- C7 (amended): the balancer's move search only accepts an overlapping unit
type holding strictly more than 10 units (types with 10 or fewer are
skipped); the move then transfers `min(10, qty - 1)` (= 10) units from the
slowest to the fastest building, and the search fails exactly when no
overlapping type holds more than 10 units. -/
theorem C7_move_requires_more_than_ten (sa : List (ℕ × ℤ)) (slow fast : Building)
    (keys : List ℕ) (u : ℕ) (cq : ℤ) :
    (findMovable sa fast keys = some (u, cq) →
        u ∈ keys ∧ containsD fast.unit_data u = true ∧
          (lookupD sa u).getD 0 = cq ∧ 10 < cq) ∧
      ((∀ w ∈ keys, containsD fast.unit_data w = false ∨ (lookupD sa w).getD 0 ≤ 10) →
        findMovable sa fast keys = none) ∧
      (10 < cq → (lookupD slow.assignments u).getD 0 = cq →
        getD0 (applyMove slow fast u cq).1.assignments u = cq - min 10 (cq - 1) ∧
          getD0 (applyMove slow fast u cq).2.assignments u =
            getD0 fast.assignments u + min 10 (cq - 1)) := by
  refine ⟨findMovable_some sa fast keys u cq, findMovable_none sa fast keys, ?_⟩
  intro hcq hl
  have hmin : min (10 : ℤ) (cq - 1) = 10 := min_eq_left (by omega)
  obtain ⟨hs, hf⟩ := applyMove_assignments slow fast u cq hcq hl
  rw [hs, hf, hmin, getD0_setD_self, getD0_setD_self]
  exact ⟨rfl, rfl⟩

/-- Witness for the amended C7 at a concrete 15-unit overlap. -/
theorem C7_move_requires_more_than_ten_witness :
    (1 ∈ [1] ∧ containsD smallF.unit_data 1 = true ∧
        (lookupD elevenS.assignments 1).getD 0 = 15 ∧ (10 : ℤ) < 15) ∧
      getD0 (applyMove elevenS smallF 1 15).1.assignments 1 = 15 - min 10 14 ∧
        getD0 (applyMove elevenS smallF 1 15).2.assignments 1 =
          getD0 smallF.assignments 1 + min 10 14 := by
  constructor
  · exact (C7_move_requires_more_than_ten elevenS.assignments elevenS smallF [1] 1 15).1
      (by with_unfolding_all decide)
  · exact (C7_move_requires_more_than_ten elevenS.assignments elevenS smallF [1] 1 15).2.2
      (by decide) (by with_unfolding_all decide)

theorem smallWT : withTimes [smallS, smallF] =
    [{ smallS with estimated_time := 5010 }, { smallF with estimated_time := 0 }] := by
  simp only [withTimes, List.map_cons, List.map_nil, estTime, smallS, smallF]
  norm_num [containsD, unitTime, lookupD, List.find?]

theorem smallStep (f : ℕ) : balanceLoop 1800 (f + 1) [smallS, smallF] =
    (f + 1, [{ smallS with estimated_time := 5010 }, { smallF with estimated_time := 0 }]) := by
  rw [balanceLoop, smallWT]
  simp only [List.map_cons, List.map_nil, List.isEmpty_cons, maxQ, minQ]
  norm_num [findMovable, containsD, lookupD, List.find?, List.findIdx, List.findIdx.go,
    smallS, smallF]

/-- Counterexample to C7 as stated: the slowest building holds 5 units
(at least 2) of a type the fastest building can build, the skew exceeds the
tolerance, yet `balance_distribution` moves nothing (the claimed move of
`min(10, 5-1) = 4` units does not happen: quantities of 10 or fewer are
skipped). -/
theorem C7_counterexample :
    1800 < maxQ ([smallS, smallF].map estTime) - minQ ([smallS, smallF].map estTime) ∧
      (2 : ℤ) ≤ getD0 smallS.assignments 1 ∧ getD0 smallS.assignments 1 = 5 ∧
      containsD smallF.unit_data 1 = true ∧
      (balance_distribution [smallS, smallF] 1800).map Building.assignments =
        [smallS.assignments, smallF.assignments] := by
  refine ⟨?_, by with_unfolding_all decide, by with_unfolding_all decide, by decide, ?_⟩
  · simp only [List.map_cons, List.map_nil, estTime, smallS, smallF]
    norm_num [containsD, unitTime, lookupD, List.find?, maxQ, minQ]
  · rw [balance_distribution, show (100 : ℕ) = 99 + 1 from rfl, smallStep]
    simp [smallS, smallF]

/-! ### Claim C6: the balancing loop's exit conditions -/

theorem oscStep0 (f : ℕ) : balanceLoop 1800 (f + 1) [oscA, oscB] = balanceLoop 1800 f oscT1 := by
  have hW : withTimes [oscA, oscB] =
      [{ oscA with estimated_time := 4000 }, { oscB with estimated_time := 2100 }] := by
    simp only [withTimes, List.map_cons, List.map_nil, estTime, oscA, oscB]
    norm_num [containsD, unitTime, lookupD, List.find?]
  rw [balanceLoop, hW]
  simp only [List.map_cons, List.map_nil, oscA, oscB]
  have hmax : maxQ [(4000 : ℚ), 2100] = 4000 := by norm_num [maxQ]
  have hmin : minQ [(4000 : ℚ), 2100] = 2100 := by norm_num [minQ]
  rw [hmax, hmin]
  rw [if_neg (by norm_num), if_neg (by norm_num)]
  rw [List.findIdx_cons, List.findIdx_cons, List.findIdx_cons, List.findIdx_cons]
  rw [beqQ 4000 2100 (by norm_num)]
  simp only [beq_self_eq_true, cond_true, cond_false, List.findIdx_nil]
  norm_num [List.getD, findMovable, containsD, lookupD, List.find?, applyMove, setD, eraseD,
    List.set, oscT1]
  simp [oscA, oscB]

theorem oscStep1 (f : ℕ) : balanceLoop 1800 (f + 1) oscT1 = balanceLoop 1800 f oscT2 := by
  have hW : withTimes oscT1 =
      [{ oscA with assignments := [(1, 11)], estimated_time := 2100 },
       { oscB with assignments := [(1, 21)], estimated_time := 4000 }] := by
    simp only [withTimes, oscT1, List.map_cons, List.map_nil, estTime, oscA, oscB]
    norm_num [containsD, unitTime, lookupD, List.find?]
  rw [balanceLoop, hW]
  simp only [List.map_cons, List.map_nil, oscA, oscB]
  have hmax : maxQ [(2100 : ℚ), 4000] = 4000 := by norm_num [maxQ]
  have hmin : minQ [(2100 : ℚ), 4000] = 2100 := by norm_num [minQ]
  rw [hmax, hmin]
  rw [if_neg (by norm_num), if_neg (by norm_num)]
  rw [List.findIdx_cons, List.findIdx_cons, List.findIdx_cons, List.findIdx_cons]
  rw [beqQ 2100 4000 (by norm_num)]
  simp only [beq_self_eq_true, cond_true, cond_false, List.findIdx_nil]
  norm_num [List.getD, findMovable, containsD, lookupD, List.find?, applyMove, setD, eraseD,
    List.set, oscT2]
  simp [oscA, oscB]

theorem oscStep2 (f : ℕ) : balanceLoop 1800 (f + 1) oscT2 = balanceLoop 1800 f oscT1 := by
  have hW : withTimes oscT2 =
      [{ oscA with assignments := [(1, 21)], estimated_time := 4000 },
       { oscB with assignments := [(1, 11)], estimated_time := 2100 }] := by
    simp only [withTimes, oscT2, List.map_cons, List.map_nil, estTime, oscA, oscB]
    norm_num [containsD, unitTime, lookupD, List.find?]
  rw [balanceLoop, hW]
  simp only [List.map_cons, List.map_nil, oscA, oscB]
  have hmax : maxQ [(4000 : ℚ), 2100] = 4000 := by norm_num [maxQ]
  have hmin : minQ [(4000 : ℚ), 2100] = 2100 := by norm_num [minQ]
  rw [hmax, hmin]
  rw [if_neg (by norm_num), if_neg (by norm_num)]
  rw [List.findIdx_cons, List.findIdx_cons, List.findIdx_cons, List.findIdx_cons]
  rw [beqQ 4000 2100 (by norm_num)]
  simp only [beq_self_eq_true, cond_true, cond_false, List.findIdx_nil]
  norm_num [List.getD, findMovable, containsD, lookupD, List.find?, applyMove, setD, eraseD,
    List.set, oscT1]
  simp [oscA, oscB]

theorem oscLoop (n : ℕ) : balanceLoop 1800 (2 * n + 1) oscT1 = (0, oscT2) := by
  induction n with
  | zero =>
    rw [show 2 * 0 + 1 = 0 + 1 from rfl, oscStep1]
    rfl
  | succ k ih =>
    rw [show 2 * (k + 1) + 1 = (2 * k + 1) + 1 + 1 by ring, oscStep1, oscStep2]
    exact ih

theorem oscFinal : balance_distribution [oscA, oscB] 1800 = oscT2 := by
  rw [balance_distribution, show (100 : ℕ) = 99 + 1 from rfl, oscStep0,
    show (99 : ℕ) = 2 * 49 + 1 from rfl, oscLoop]

/-- Counterexample to C6 as stated: on `[oscA, oscB]` the balancer exhausts
its 100-iteration cap while the final state still has skew above the
tolerance and a single-unit-type move between the current slowest and
fastest buildings is still possible. -/
theorem C6_counterexample :
    ¬ (skewOk (balance_distribution [oscA, oscB] 1800) 1800 ∨
        movePossible (balance_distribution [oscA, oscB] 1800) = false) := by
  rw [oscFinal]
  intro h
  rcases h with h | h
  · rw [skewOk] at h
    revert h
    simp only [oscT2, List.map_cons, List.map_nil, estTime, oscA, oscB]
    norm_num [containsD, unitTime, lookupD, List.find?, maxQ, minQ]
  · rw [movePossible] at h
    revert h
    simp only [oscT2, List.isEmpty_cons, Bool.false_eq_true, if_false, List.map_cons,
      List.map_nil, estTime, oscA, oscB]
    norm_num [containsD, unitTime, lookupD, List.find?, maxQ, minQ]
    rw [List.findIdx_cons, List.findIdx_cons, List.findIdx_cons, List.findIdx_cons]
    rw [beqQ 4000 2100 (by norm_num)]
    simp only [beq_self_eq_true, cond_true, cond_false, List.findIdx_nil]
    norm_num [List.getD, findMovable, containsD, lookupD, List.find?]
    simp

theorem estTime_est_update (b : Building) (x : ℚ) :
    estTime { b with estimated_time := x } = estTime b := rfl

theorem withTimes_map_est (bs : List Building) :
    (withTimes bs).map Building.estimated_time = bs.map estTime := by
  simp [withTimes]

theorem withTimes_map_estTime (bs : List Building) :
    (withTimes bs).map estTime = bs.map estTime := by
  simp only [withTimes, List.map_map]
  rfl

theorem balanceLoop_exit (tol : ℚ) : ∀ (f : ℕ) (bs : List Building),
    (balanceLoop tol f bs).1 ≠ 0 →
      skewOk (balanceLoop tol f bs).2 tol ∨ movePossible (balanceLoop tol f bs).2 = false := by
  intro f
  induction f with
  | zero =>
    intro bs h
    exact absurd rfl h
  | succ g ih =>
    intro bs h
    by_cases h1 : ((withTimes bs).map Building.estimated_time).isEmpty
    · have hnil : withTimes bs = [] := by
        rcases List.isEmpty_iff.1 h1 with hmap
        exact List.map_eq_nil_iff.1 hmap
      rw [balanceLoop, if_pos h1]
      right
      rw [hnil, movePossible]
      rfl
    · by_cases h2 : maxQ ((withTimes bs).map Building.estimated_time) -
          minQ ((withTimes bs).map Building.estimated_time) ≤ tol
      · rw [balanceLoop, if_neg (by simpa using h1), if_pos h2]
        left
        rw [skewOk, withTimes_map_estTime]
        rwa [withTimes_map_est] at h2
      · rw [balanceLoop, if_neg (by simpa using h1), if_neg h2] at h ⊢
        simp only [] at h ⊢
        split
        · rename_i heq
          right
          have hne : (withTimes bs).isEmpty = false := by
            rcases hW : withTimes bs with _ | ⟨x, xs⟩
            · exact absurd (by rw [hW]; rfl) h1
            · rfl
          rw [withTimes_map_est] at heq
          simp only [movePossible, hne, Bool.false_eq_true, if_false, withTimes_map_estTime]
          rw [heq]
          rfl
        · rename_i u cq heq
          simp only [heq] at h
          exact ih _ h

/-- C6 (amended): when `balance_distribution` returns, either the
completion-time skew is within the 1800 s tolerance, or no single-unit-type
move between the current slowest and fastest buildings is possible, or the
100-iteration cap was exhausted. -/
theorem C6_balance_exit_conditions (bs : List Building) :
    skewOk (balance_distribution bs 1800) 1800 ∨
      movePossible (balance_distribution bs 1800) = false ∨
      (balanceLoop 1800 100 bs).1 = 0 := by
  by_cases h : (balanceLoop 1800 100 bs).1 = 0
  · exact Or.inr (Or.inr h)
  · rcases balanceLoop_exit 1800 100 bs h with h2 | h2
    · exact Or.inl (by rwa [balance_distribution])
    · exact Or.inr (Or.inl (by rwa [balance_distribution]))

/-! ### Claims C8 and C9: the time estimator -/

theorem lookupD_map_snd {α β : Type} (m : List (ℕ × α)) (f : α → β) (k : ℕ) :
    lookupD (m.map (fun p => (p.1, f p.2))) k = (lookupD m k).map f := by
  induction m with
  | nil => rfl
  | cons p rest ih =>
    rw [List.map_cons, lookupD_cons, lookupD_cons]
    by_cases hp : p.1 = k
    · simp [hp]
    · simp only [hp, if_false, if_neg hp]
      exact ih

theorem foldl_add_shift (f : ℕ × ℤ → ℚ) (l : List (ℕ × ℤ)) (a : ℚ) :
    l.foldl (fun acc p => acc + f p) a = a + l.foldl (fun acc p => acc + f p) 0 := by
  induction l generalizing a with
  | nil => simp
  | cons p rest ih =>
    rw [List.foldl_cons, List.foldl_cons, ih (a + f p), ih (0 + f p)]
    ring

theorem estAddBuilding_build_time (r : CityEst) (b : Building) :
    (estAddBuilding r b).build_time_seconds = r.build_time_seconds + perBuildingTime b := by
  have hfold : ∀ (l : List (ℕ × ℤ)) (r0 : CityEst),
      (l.foldl
        (fun acc p =>
          if containsD b.unit_data p.1 then
            let ud := (lookupD b.unit_data p.1).getD default
            { acc with
                citizens_needed := acc.citizens_needed + ud.citizens * p.2
                build_time_seconds := acc.build_time_seconds + ud.time_seconds * (p.2 : ℚ) }
          else acc) r0).build_time_seconds =
        r0.build_time_seconds +
          l.foldl
            (fun acc p =>
              acc + (if containsD b.unit_data p.1 then unitTime b p.1 * (p.2 : ℚ) else 0)) 0 := by
    intro l
    induction l with
    | nil => intro r0; simp
    | cons p rest ih =>
      intro r0
      rw [List.foldl_cons, List.foldl_cons, ih]
      conv_rhs => rw [foldl_add_shift
        (fun p => if containsD b.unit_data p.1 then unitTime b p.1 * (p.2 : ℚ) else 0)]
      by_cases hc : containsD b.unit_data p.1
      · simp only [hc, if_true, unitTime]
        ring
      · simp only [hc, Bool.false_eq_true, if_false]
        ring
  rw [estAddBuilding]
  by_cases he : b.assignments.isEmpty
  · rw [if_pos he, hfold, perBuildingTime, if_pos he]
    ring
  · rw [if_neg (by simpa using he)]
    show (b.assignments.foldl _ r).build_time_seconds + 10 = _
    rw [hfold, perBuildingTime, if_neg (by simpa using he)]
    ring

theorem estStep_lookup_ne (resources : List (ℕ × CityResources)) (rates : List (ℕ × ℚ))
    (m : List (ℕ × CityEst)) (b : Building) (c : ℕ) (h : b.city_id ≠ c) :
    lookupD (estStep resources rates m b) c = lookupD m c := by
  rw [estStep, lookupD_setD_ne _ _ _ _ (Ne.symm h)]

theorem code_city_build_time_cons (b : Building) (l : List Building) (c : ℕ) :
    code_city_build_time (b :: l) c =
      (if b.city_id = c then perBuildingTime b else 0) + code_city_build_time l c := by
  rw [code_city_build_time, code_city_build_time, List.filter_cons]
  by_cases hc : b.city_id = c
  · rw [if_pos (by simpa using hc), if_pos hc, List.map_cons, List.sum_cons]
  · rw [if_neg (by simpa using hc), if_neg hc, zero_add]

theorem estFold_build_time (resources : List (ℕ × CityResources)) (rates : List (ℕ × ℚ)) :
    ∀ (l : List Building) (m : List (ℕ × CityEst)) (c : ℕ),
      (lookupD (l.foldl (estStep resources rates) m) c).map CityEst.build_time_seconds =
        match lookupD m c with
        | some r => some (r.build_time_seconds + code_city_build_time l c)
        | none =>
          if (l.filter (fun b => b.city_id == c)).isEmpty then none
          else some (code_city_build_time l c) := by
  intro l
  induction l with
  | nil =>
    intro m c
    rw [List.foldl_nil]
    cases hm : lookupD m c with
    | none => simp [code_city_build_time]
    | some r => simp [code_city_build_time]
  | cons b rest ih =>
    intro m c
    rw [List.foldl_cons, ih (estStep resources rates m b) c]
    by_cases hc : b.city_id = c
    · have hstep : lookupD (estStep resources rates m b) c =
          some (estAddBuilding
            (match lookupD m b.city_id with
             | some r => r
             | none => estNewCity resources rates b) b) := by
        rw [estStep, ← hc, lookupD_setD_self]
      rw [hstep]
      cases hm : lookupD m c with
      | some r =>
        have hm2 : lookupD m b.city_id = some r := by rwa [hc]
        rw [hm2]
        simp only []
        rw [estAddBuilding_build_time, code_city_build_time_cons, if_pos hc]
        ring_nf
      | none =>
        have hm2 : lookupD m b.city_id = none := by rwa [hc]
        rw [hm2]
        simp only []
        rw [estAddBuilding_build_time, code_city_build_time_cons, if_pos hc]
        have hfil : ((b :: rest).filter (fun b => b.city_id == c)).isEmpty = false := by
          rw [List.filter_cons, if_pos (by simpa using hc)]
          rfl
        rw [hfil]
        have hnew : (estNewCity resources rates b).build_time_seconds = 0 := rfl
        rw [hnew]
        simp only [Bool.false_eq_true, if_false]
        ring_nf
    · rw [estStep_lookup_ne resources rates m b c hc]
      have hfil : (b :: rest).filter (fun b => b.city_id == c) =
          rest.filter (fun b => b.city_id == c) := by
        rw [List.filter_cons, if_neg (by simpa using hc)]
      cases hm : lookupD m c with
      | some r =>
        rw [code_city_build_time_cons, if_neg hc, zero_add]
      | none =>
        rw [hfil, code_city_build_time_cons, if_neg hc, zero_add]

/-- C8 (amended): in `estimate_recruitment_time`, each city's build time is
the sum over that city's buildings of (per-unit time × qty over unit types
present in the building's table) plus a flat 10 seconds per building with a
non-empty assignment — not 10 seconds per distinct unit type. -/
theorem C8_city_build_time (bs : List Building) (resources : List (ℕ × CityResources))
    (rates : List (ℕ × ℚ)) (c : ℕ) (r : CityEst)
    (h : lookupD (estimate_recruitment_time bs resources rates).by_city c = some r) :
    r.build_time_seconds = code_city_build_time bs c := by
  rw [estimate_recruitment_time] at h
  simp only [lookupD_map_snd] at h
  have hfold := estFold_build_time resources rates bs [] c
  rw [show lookupD ([] : List (ℕ × CityEst)) c = none from rfl] at hfold
  cases hm : lookupD (bs.foldl (estStep resources rates) []) c with
  | none => rw [hm] at h; exact absurd h (by simp)
  | some r0 =>
    rw [hm] at h hfold
    have hr : estFinalizeCity r0 = r := by simpa using h
    have hbt : r.build_time_seconds = r0.build_time_seconds := by rw [← hr]; rfl
    by_cases hfil : (bs.filter (fun b => b.city_id == c)).isEmpty
    · rw [if_pos hfil] at hfold
      exact absurd hfold (by simp)
    · rw [if_neg hfil] at hfold
      have hval : r0.build_time_seconds = code_city_build_time bs c := by simpa using hfold
      rw [hbt, hval]

/-- Witness for the amended C8 at the two-unit-type building. -/
theorem C8_city_build_time_witness :
    lookupD (estimate_recruitment_time [twoUnitB] [] []).by_city 1 = some cityRec8 ∧
      cityRec8.build_time_seconds = code_city_build_time [twoUnitB] 1 := by
  have h : lookupD (estimate_recruitment_time [twoUnitB] [] []).by_city 1 = some cityRec8 := by
    with_unfolding_all decide
  exact ⟨h, C8_city_build_time [twoUnitB] [] [] 1 cityRec8 h⟩

/-- Counterexample to C8 as stated: with one building holding two assigned
unit types, the code's city build time is 22 s (flat 10 s per building)
while the spec's formula (10 s per distinct unit type per building) gives
32 s. -/
theorem C8_counterexample :
    (lookupD (estimate_recruitment_time [twoUnitB] [] []).by_city 1).map
        CityEst.build_time_seconds = some 22 ∧
      spec_city_build_time [twoUnitB] 1 = 32 ∧
      (lookupD (estimate_recruitment_time [twoUnitB] [] []).by_city 1).map
        CityEst.build_time_seconds ≠ some (spec_city_build_time [twoUnitB] 1) := by
  refine ⟨?_, ?_, ?_⟩
  · with_unfolding_all decide
  · with_unfolding_all decide
  · intro hcontra
    have h1 : (lookupD (estimate_recruitment_time [twoUnitB] [] []).by_city 1).map
        CityEst.build_time_seconds = some 22 := by with_unfolding_all decide
    have h2 : spec_city_build_time [twoUnitB] 1 = 32 := by with_unfolding_all decide
    rw [h1, h2] at hcontra
    simp only [Option.some.injEq] at hcontra
    norm_num at hcontra

theorem estFinalize_needed (r0 : CityEst) :
    (estFinalizeCity r0).citizens_needed = r0.citizens_needed := rfl

theorem estFinalize_available (r0 : CityEst) :
    (estFinalizeCity r0).citizens_available = r0.citizens_available := rfl

theorem estFinalize_growth (r0 : CityEst) :
    (estFinalizeCity r0).growth_rate = r0.growth_rate := rfl

theorem estFinalize_build_time (r0 : CityEst) :
    (estFinalizeCity r0).build_time_seconds = r0.build_time_seconds := rfl

theorem estFinalize_wait (r0 : CityEst) :
    (estFinalizeCity r0).citizen_wait_seconds =
      (if r0.citizens_needed ≤ r0.citizens_available then some 0
       else if 0 < r0.growth_rate then
         some (((r0.citizens_needed - r0.citizens_available : ℤ) : ℚ) / r0.growth_rate * 3600)
       else none) := rfl

theorem estFinalize_total (r0 : CityEst) :
    (estFinalizeCity r0).total_time_seconds =
      (estFinalizeCity r0).citizen_wait_seconds.map
        (fun w => w * (4 / 5) + (estFinalizeCity r0).build_time_seconds) := by
  by_cases h1 : r0.citizens_needed ≤ r0.citizens_available
  · simp [estFinalizeCity, h1]
  · by_cases h2 : 0 < r0.growth_rate
    · simp [estFinalizeCity, h1, h2]
    · simp [estFinalizeCity, h1, h2]

theorem oGT_none_right (x : Option ℚ) : oGT x none = false := by
  cases x <;> rfl

theorem estMaxFold_none_stays (l : List (ℕ × CityEst)) :
    ∀ acc : Option ℚ × Option ℕ, acc.1 = none → (l.foldl estMaxStep acc).1 = none := by
  induction l with
  | nil => intro acc h; exact h
  | cons q rest ih =>
    intro acc h
    rw [List.foldl_cons]
    apply ih
    rw [estMaxStep, h, oGT_none_right, if_neg (by simp)]
    exact h

theorem estMaxFold_none_mem (l : List (ℕ × CityEst)) :
    ∀ (acc : Option ℚ × Option ℕ) (p : ℕ × CityEst), p ∈ l →
      p.2.total_time_seconds = none → (l.foldl estMaxStep acc).1 = none := by
  induction l with
  | nil => intro acc p hp; cases hp
  | cons q rest ih =>
    intro acc p hp hnone
    rw [List.foldl_cons]
    rcases List.mem_cons.1 hp with rfl | hp2
    · cases hacc : acc.1 with
      | none =>
        apply estMaxFold_none_stays
        rw [estMaxStep, hnone, hacc, oGT_none_right, if_neg (by simp)]
        exact hacc
      | some a =>
        apply estMaxFold_none_stays
        rw [estMaxStep, hnone, hacc]
        rw [if_pos (by rfl)]
    · exact ih _ p hp2 hnone

/-- C9: per city, the citizen wait is 0 with no deficit, deficit/growth×3600
seconds with a deficit and positive growth, and unknown (`float('inf')`,
modelled `none`) with a deficit and zero growth; the city total is
0.8 × wait + build time; and any city with an unknown wait makes the overall
estimate unknown. -/
theorem C9_citizen_wait_rules (bs : List Building) (resources : List (ℕ × CityResources))
    (rates : List (ℕ × ℚ)) (c : ℕ) (r : CityEst) :
    (lookupD (estimate_recruitment_time bs resources rates).by_city c = some r →
      (r.citizens_needed ≤ r.citizens_available → r.citizen_wait_seconds = some 0) ∧
        (r.citizens_available < r.citizens_needed → 0 < r.growth_rate →
          r.citizen_wait_seconds =
            some (((r.citizens_needed - r.citizens_available : ℤ) : ℚ) /
              r.growth_rate * 3600)) ∧
        (r.citizens_available < r.citizens_needed → r.growth_rate = 0 →
          r.citizen_wait_seconds = none) ∧
        r.total_time_seconds =
          r.citizen_wait_seconds.map (fun w => w * (4 / 5) + r.build_time_seconds)) ∧
      (∀ p ∈ (estimate_recruitment_time bs resources rates).by_city,
        p.2.citizen_wait_seconds = none →
          (estimate_recruitment_time bs resources rates).total_time_seconds = none) := by
  constructor
  · intro h
    rw [estimate_recruitment_time] at h
    simp only [lookupD_map_snd] at h
    cases hm : lookupD (bs.foldl (estStep resources rates) []) c with
    | none => rw [hm] at h; exact absurd h (by simp)
    | some r0 =>
      rw [hm] at h
      have hr : estFinalizeCity r0 = r := by simpa using h
      refine ⟨?_, ?_, ?_, ?_⟩
      · intro hle
        rw [← hr, estFinalize_wait, if_pos (by rwa [← estFinalize_needed, ← estFinalize_available, hr])]
      · intro hlt hgr
        rw [← hr, estFinalize_wait,
          if_neg (by rw [← estFinalize_needed, ← estFinalize_available, hr]; omega),
          if_pos (by rwa [← estFinalize_growth, hr])]
        rfl
      · intro hlt hgr
        rw [← hr, estFinalize_wait,
          if_neg (by rw [← estFinalize_needed, ← estFinalize_available, hr]; omega),
          if_neg (by rw [← estFinalize_growth, hr, hgr]; exact lt_irrefl 0)]
      · rw [← hr]
        exact estFinalize_total r0
  · intro p hp hnone
    rw [estimate_recruitment_time] at hp ⊢
    simp only [] at hp ⊢
    have htotal : p.2.total_time_seconds = none := by
      obtain ⟨q, _, hq⟩ := List.mem_map.1 hp
      have : p.2 = estFinalizeCity q.2 := by rw [← hq]
      rw [this, estFinalize_total, ← this, hnone]
      rfl
    exact estMaxFold_none_mem _ _ p hp htotal

/-- Witness for C9 at a city with a 2-citizen deficit and growth 400/h. -/
theorem C9_citizen_wait_rules_witness :
    lookupD (estimate_recruitment_time [deficitB] citySnap9 growth9).by_city 1 = some cityRec9 ∧
      cityRec9.citizen_wait_seconds =
        some (((cityRec9.citizens_needed - cityRec9.citizens_available : ℤ) : ℚ) /
          cityRec9.growth_rate * 3600) ∧
      cityRec9.total_time_seconds =
        cityRec9.citizen_wait_seconds.map
          (fun w => w * (4 / 5) + cityRec9.build_time_seconds) := by
  have h : lookupD (estimate_recruitment_time [deficitB] citySnap9 growth9).by_city 1 =
      some cityRec9 := by
    with_unfolding_all decide
  have hmain := (C9_citizen_wait_rules [deficitB] citySnap9 growth9 1 cityRec9).1 h
  exact ⟨h, hmain.2.1 (by decide) (by with_unfolding_all decide), hmain.2.2.2⟩

/-! ### Claim C5: remaining-assignment invariants of the execution loop -/

theorem greedyRecruit_pos (ud : List (ℕ × UnitData)) :
    ∀ (rem : List (ℕ × ℤ)) (avail : CityResources) (p : ℕ × ℤ),
      p ∈ (greedyRecruit ud rem avail).1 → 0 < p.2 := by
  intro rem
  induction rem with
  | nil => intro avail p hp; simp [greedyRecruit] at hp
  | cons q rest ih =>
    intro avail p hp
    rcases q with ⟨u, need⟩
    rw [greedyRecruit] at hp
    by_cases h1 : containsD ud u
    · rw [if_pos h1] at hp
      simp only [] at hp
      by_cases h2 : 0 < capBy (capBy (capBy (capBy (capBy
          (capBy need avail.citizens ((lookupD ud u).getD default).citizens)
          avail.wood ((lookupD ud u).getD default).wood)
          avail.wine ((lookupD ud u).getD default).wine)
          avail.marble ((lookupD ud u).getD default).marble)
          avail.crystal ((lookupD ud u).getD default).crystal)
          avail.sulfur ((lookupD ud u).getD default).sulfur
      · rw [if_pos h2] at hp
        rcases List.mem_cons.1 hp with rfl | hp2
        · exact h2
        · exact ih _ p hp2
      · rw [if_neg h2] at hp
        exact ih _ p hp
    · rw [if_neg (by simpa using h1)] at hp
      exact ih _ p hp

theorem cycleCollect_mem_pos (l : List (ℕ × Building))
    (st : List RecruitInfo × List (ℕ × CityResources)) (r : RecruitInfo)
    (hr : r ∈ (l.foldl cycleStep st).1) :
    r ∈ st.1 ∨ ∀ p ∈ r.to_recruit, 0 < p.2 := by
  induction l generalizing st with
  | nil => exact Or.inl hr
  | cons q rest ih =>
    rw [List.foldl_cons] at hr
    rcases ih (cycleStep st q) hr with h | h
    · rw [cycleStep] at h
      by_cases h1 : q.2.remaining_assignments.isEmpty
      · rw [if_pos h1] at h; exact Or.inl h
      · rw [if_neg h1] at h
        by_cases h2 : q.2.is_busy
        · rw [if_pos h2] at h; exact Or.inl h
        · rw [if_neg h2] at h
          by_cases h3 : max 1 (pyInt ((sumVals q.2.remaining_assignments : ℚ) * (1 / 5))) ≤
              (greedyRecruit q.2.unit_data q.2.remaining_assignments
                ((lookupD st.2 q.2.city_id).getD default)).2.1
          · rw [if_pos h3] at h
            simp only [List.mem_append, List.mem_singleton] at h
            rcases h with h | h
            · exact Or.inl h
            · subst h
              exact Or.inr (fun p hp => greedyRecruit_pos _ _ _ p hp)
          · rw [if_neg h3] at h; exact Or.inl h
    · exact Or.inr h

theorem decStep_inv (m : List (ℕ × ℤ)) (k : ℕ) (v : ℤ) (hv : 0 ≤ v)
    (hnd : (m.map Prod.fst).Nodup) (hnn : ∀ w, 0 ≤ getD0 m w) :
    let m1 := if (lookupD m k).getD 0 - v ≤ 0 then eraseD m k
              else setD m k ((lookupD m k).getD 0 - v)
    (m1.map Prod.fst).Nodup ∧ (∀ w, 0 ≤ getD0 m1 w ∧ getD0 m1 w ≤ getD0 m w) ∧
      sumVals m1 ≤ sumVals m := by
  by_cases hbr : (lookupD m k).getD 0 - v ≤ 0
  · simp only [if_pos hbr]
    refine ⟨keysND_eraseD m k hnd, fun w => ?_, ?_⟩
    · by_cases hw : w = k
      · subst hw
        rw [getD0_eraseD_self]
        exact ⟨le_refl 0, hnn w⟩
      · rw [getD0_eraseD_ne m k w hw]
        exact ⟨hnn w, le_refl _⟩
    · rw [sumVals_eraseD m k hnd]
      have hk := hnn k
      omega
  · simp only [if_neg hbr]
    refine ⟨keysND_setD m k _ hnd, fun w => ?_, ?_⟩
    · by_cases hw : w = k
      · subst hw
        rw [getD0_setD_self]
        constructor
        · omega
        · rw [getD0]; omega
      · rw [getD0_setD_ne m k w _ hw]
        exact ⟨hnn w, le_refl _⟩
    · rw [sumVals_setD m k _]
      rw [getD0]
      omega

theorem decFold_inv (cr : List (ℕ × ℤ)) :
    ∀ (m : List (ℕ × ℤ)), (∀ p ∈ cr, 0 < p.2) → (m.map Prod.fst).Nodup →
      (∀ w, 0 ≤ getD0 m w) →
      ((((cr.foldl
          (fun m p =>
            let nv := (lookupD m p.1).getD 0 - p.2
            if nv ≤ 0 then eraseD m p.1 else setD m p.1 nv) m)).map Prod.fst).Nodup ∧
        (∀ w, 0 ≤ getD0 (cr.foldl
          (fun m p =>
            let nv := (lookupD m p.1).getD 0 - p.2
            if nv ≤ 0 then eraseD m p.1 else setD m p.1 nv) m) w ∧
          getD0 (cr.foldl
            (fun m p =>
              let nv := (lookupD m p.1).getD 0 - p.2
              if nv ≤ 0 then eraseD m p.1 else setD m p.1 nv) m) w ≤ getD0 m w) ∧
        sumVals (cr.foldl
          (fun m p =>
            let nv := (lookupD m p.1).getD 0 - p.2
            if nv ≤ 0 then eraseD m p.1 else setD m p.1 nv) m) ≤ sumVals m) := by
  induction cr with
  | nil =>
    intro m _ hnd hnn
    exact ⟨hnd, fun w => ⟨hnn w, le_refl _⟩, le_refl _⟩
  | cons p rest ih =>
    intro m hpos hnd hnn
    rw [List.foldl_cons]
    have hstep := decStep_inv m p.1 p.2 (le_of_lt (hpos p (List.mem_cons_self _ _))) hnd hnn
    simp only [] at hstep ⊢
    obtain ⟨hnd1, hptw1, hsum1⟩ := hstep
    have hrest := ih _ (fun q hq => hpos q (List.mem_cons_of_mem _ hq)) hnd1
      (fun w => (hptw1 w).1)
    obtain ⟨hnd2, hptw2, hsum2⟩ := hrest
    refine ⟨hnd2, fun w => ⟨(hptw2 w).1, le_trans (hptw2 w).2 (hptw1 w).2⟩,
      le_trans hsum2 hsum1⟩

theorem applyRecruit_inv (b : Building) (cr : List (ℕ × ℤ)) (hpos : ∀ p ∈ cr, 0 < p.2)
    (hnd : (b.remaining_assignments.map Prod.fst).Nodup)
    (hnn : ∀ w, 0 ≤ getD0 b.remaining_assignments w) :
    (applyRecruit b cr).assignments = b.assignments ∧
      (((applyRecruit b cr).remaining_assignments.map Prod.fst).Nodup ∧
        (∀ w, 0 ≤ getD0 (applyRecruit b cr).remaining_assignments w ∧
          getD0 (applyRecruit b cr).remaining_assignments w ≤
            getD0 b.remaining_assignments w) ∧
        sumVals (applyRecruit b cr).remaining_assignments ≤
          sumVals b.remaining_assignments) := by
  refine ⟨rfl, ?_⟩
  exact decFold_inv cr b.remaining_assignments hpos hnd hnn

theorem RemInv_default : ((default : Building).remaining_assignments.map Prod.fst).Nodup ∧
    ∀ w, 0 ≤ getD0 (default : Building).remaining_assignments w ∧
      getD0 (default : Building).remaining_assignments w ≤
        getD0 (default : Building).assignments w := by
  exact ⟨List.nodup_nil, fun w => ⟨le_refl 0, le_refl 0⟩⟩

theorem applyAll_inv (recs : List RecruitInfo) :
    ∀ (acc : List Building), RemInv acc → (∀ r ∈ recs, ∀ p ∈ r.to_recruit, 0 < p.2) →
      RemInv (applyAll acc recs) ∧ totalRemaining (applyAll acc recs) ≤ totalRemaining acc := by
  induction recs with
  | nil => intro acc hinv _; exact ⟨hinv, le_refl _⟩
  | cons r rest ih =>
    intro acc hinv hpos
    rw [applyAll, List.foldl_cons]
    have hposr := hpos r (List.mem_cons_self _ _)
    have hb : (((acc.getD r.bIdx default).remaining_assignments.map Prod.fst).Nodup ∧
        ∀ w, 0 ≤ getD0 (acc.getD r.bIdx default).remaining_assignments w ∧
          getD0 (acc.getD r.bIdx default).remaining_assignments w ≤
            getD0 (acc.getD r.bIdx default).assignments w) := by
      by_cases hlen : r.bIdx < acc.length
      · have hmem : acc.getD r.bIdx default ∈ acc := by
          rw [List.getD_eq_getElem acc default hlen]
          exact List.getElem_mem hlen
        exact hinv _ hmem
      · rw [List.getD_eq_default _ _ (Nat.le_of_not_lt hlen)]
        exact ⟨RemInv_default.1, fun w => ⟨(RemInv_default.2 w).1, (RemInv_default.2 w).2⟩⟩
    have happ := applyRecruit_inv (acc.getD r.bIdx default) r.to_recruit hposr hb.1
      (fun w => (hb.2 w).1)
    have hinv1 : RemInv (acc.set r.bIdx (applyRecruit (acc.getD r.bIdx default) r.to_recruit)) := by
      intro b hbmem
      rcases List.mem_or_eq_of_mem_set hbmem with hmem | rfl
      · exact hinv b hmem
      · refine ⟨happ.2.1, fun w => ⟨(happ.2.2.1 w).1, ?_⟩⟩
        calc getD0 (applyRecruit (acc.getD r.bIdx default) r.to_recruit).remaining_assignments w
            ≤ getD0 (acc.getD r.bIdx default).remaining_assignments w := (happ.2.2.1 w).2
          _ ≤ getD0 (acc.getD r.bIdx default).assignments w := (hb.2 w).2
          _ = getD0 (applyRecruit (acc.getD r.bIdx default) r.to_recruit).assignments w := by
              rw [happ.1]
    have htot1 : totalRemaining
        (acc.set r.bIdx (applyRecruit (acc.getD r.bIdx default) r.to_recruit)) ≤
          totalRemaining acc := by
      by_cases hlen : r.bIdx < acc.length
      · rw [totalRemaining, totalRemaining,
          sum_map_set acc r.bIdx _ default (fun b => sumVals b.remaining_assignments) hlen]
        have := happ.2.2.2
        omega
      · rw [List.set_eq_of_length_le (Nat.le_of_not_lt hlen)]
    have hrest := ih _ hinv1 (fun q hq => hpos q (List.mem_cons_of_mem _ hq))
    rw [applyAll] at hrest
    exact ⟨hrest.1, le_trans hrest.2 htot1⟩

theorem totalRemaining_nonneg (bs : List Building) (hinv : RemInv bs) :
    0 ≤ totalRemaining bs := by
  rw [totalRemaining]
  apply List.sum_nonneg
  intro x hx
  obtain ⟨b, hb, rfl⟩ := List.mem_map.1 hx
  exact sumVals_nonneg _ (hinv b hb).1 (fun w => ((hinv b hb).2 w).1)

/-- C5: remaining assignments start equal to the planned assignments, stay
entrywise between 0 and the planned assignments across a cycle, the total
remaining quantity never increases, and the loop emits the completion notice
and terminates exactly when the total remaining quantity is zero. -/
theorem C5_remaining_invariants (bs bs2 : List Building)
    (cityRes : List (ℕ × CityResources)) :
    (∀ b ∈ initRemaining bs, b.remaining_assignments = b.assignments) ∧
      (RemInv bs2 →
        RemInv (runCycle bs2 cityRes).1 ∧
          totalRemaining (runCycle bs2 cityRes).1 ≤ totalRemaining bs2) ∧
      (RemInv bs2 →
        (loopStep bs2 cityRes = CycleResult.completed ↔ totalRemaining bs2 = 0)) := by
  refine ⟨?_, ?_, ?_⟩
  · intro b hb
    rw [initRemaining] at hb
    obtain ⟨b0, _, rfl⟩ := List.mem_map.1 hb
    rfl
  · intro hinv
    rw [runCycle]
    simp only []
    apply applyAll_inv _ bs2 hinv
    intro r hr p hp
    rcases cycleCollect_mem_pos bs2.enum ([], cityRes) r hr with h | h
    · simp at h
    · exact h p hp
  · intro hinv
    have hnn := totalRemaining_nonneg bs2 hinv
    rw [loopStep]
    by_cases h : totalRemaining bs2 ≤ 0
    · rw [if_pos h]
      constructor
      · intro _; omega
      · intro _; rfl
    · rw [if_neg h]
      constructor
      · intro hc; exact absurd hc (by simp)
      · intro hz; omega

/-- Witness for C5 at a one-building state with 10 units remaining. -/
theorem C5_remaining_invariants_witness :
    RemInv [cycleB] ∧
      (loopStep [cycleB] cycleResOk = CycleResult.completed ↔ totalRemaining [cycleB] = 0) := by
  have hinv : RemInv [cycleB] := by
    intro b hb
    rw [List.mem_singleton] at hb
    subst hb
    refine ⟨by decide, fun w => ?_⟩
    by_cases hw : w = 1
    · subst hw
      constructor
      · decide
      · decide
    · have hrem : lookupD cycleB.remaining_assignments w = none := by
        rw [show cycleB.remaining_assignments = [(1, 10)] from rfl, lookupD_cons,
          if_neg (fun hc => hw hc.symm)]
        rfl
      have hass : lookupD cycleB.assignments w = none := by
        rw [show cycleB.assignments = [(1, 10)] from rfl, lookupD_cons,
          if_neg (fun hc => hw hc.symm)]
        rfl
      rw [getD0, getD0, hrem, hass]
      exact ⟨le_refl 0, le_refl 0⟩
  exact ⟨hinv, (C5_remaining_invariants [cycleB] [cycleB] cycleResOk).2.2 hinv⟩

/-! ### Claim C3: assignments respect capability maps -/

theorem containsD_iff_mem_keys {α : Type} (m : List (ℕ × α)) (k : ℕ) :
    containsD m k = true ↔ k ∈ m.map Prod.fst := by
  rw [containsD, List.any_eq_true]
  constructor
  · rintro ⟨p, hp, hpk⟩
    exact List.mem_map.2 ⟨p, hp, by simpa using hpk⟩
  · intro hk
    obtain ⟨p, hp, hpk⟩ := List.mem_map.1 hk
    exact ⟨p, hp, by simpa using hpk⟩

theorem setQuotas_mem (u : ℕ) :
    ∀ (bs : List Building) (quotas : List ℤ) (b2 : Building), b2 ∈ setQuotas u bs quotas →
      ∃ b ∈ bs, b2 = b ∨
        (containsD b.unit_data u = true ∧
          ∃ v, b2 = { b with assignments := setD b.assignments u v }) := by
  intro bs
  induction bs with
  | nil => intro quotas b2 h; simp [setQuotas] at h
  | cons b rest ih =>
    intro quotas b2 h
    rw [setQuotas.eq_def] at h
    simp only [] at h
    by_cases hc : containsD b.unit_data u
    · rw [if_pos hc] at h
      cases quotas with
      | nil =>
        rcases List.mem_cons.1 h with rfl | h2
        · exact ⟨b2, List.mem_cons_self _ _, Or.inl rfl⟩
        · exact ⟨b2, List.mem_cons_of_mem _ h2, Or.inl rfl⟩
      | cons qv rest2 =>
        rcases List.mem_cons.1 h with rfl | h2
        · by_cases hq : 0 < qv
          · rw [if_pos hq]
            exact ⟨b, List.mem_cons_self _ _, Or.inr ⟨hc, qv, rfl⟩⟩
          · rw [if_neg hq]
            exact ⟨b, List.mem_cons_self _ _, Or.inl rfl⟩
        · obtain ⟨b0, hb0, hcase⟩ := ih rest2 b2 h2
          exact ⟨b0, List.mem_cons_of_mem _ hb0, hcase⟩
    · rw [if_neg (by simpa using hc)] at h
      rcases List.mem_cons.1 h with rfl | h2
      · exact ⟨b2, List.mem_cons_self _ _, Or.inl rfl⟩
      · obtain ⟨b0, hb0, hcase⟩ := ih quotas b2 h2
        exact ⟨b0, List.mem_cons_of_mem _ hb0, hcase⟩

theorem capInv_setQuotas (u : ℕ) (bs : List Building) (quotas : List ℤ)
    (hinv : CapInv bs) : CapInv (setQuotas u bs quotas) := by
  intro b2 hb2 w hw
  obtain ⟨b, hb, hcase⟩ := setQuotas_mem u bs quotas b2 hb2
  rcases hcase with rfl | ⟨hcap, v, rfl⟩
  · exact hinv b2 hb w hw
  · simp only [] at hw ⊢
    rcases containsD_setD b.assignments u w v hw with rfl | hold
    · exact hcap
    · exact hinv b hb w hold

theorem capInv_assignUnit (bs : List Building) (u : ℕ) (q : ℤ) (hinv : CapInv bs) :
    CapInv (assignUnit bs u q) := by
  rw [assignUnit]
  by_cases hcap : (capableOf bs u).isEmpty
  · rw [if_pos hcap]; exact hinv
  · rw [if_neg hcap]
    exact capInv_setQuotas u bs _ hinv

theorem capInv_initialAlloc (bs : List Building) (order : List (ℕ × ℤ)) :
    CapInv (initialAlloc bs order) := by
  rw [initialAlloc]
  have hreset : CapInv (resetBuildings bs) := by
    intro b hb w hw
    rw [resetBuildings] at hb
    obtain ⟨b0, _, rfl⟩ := List.mem_map.1 hb
    simp [containsD] at hw
  generalize hacc : resetBuildings bs = acc at hreset
  clear hacc
  induction order generalizing acc with
  | nil => exact hreset
  | cons p rest ih =>
    rw [List.foldl_cons]
    exact ih _ (capInv_assignUnit acc p.1 p.2 hreset)

theorem capInv_withTimes (bs : List Building) (hinv : CapInv bs) : CapInv (withTimes bs) := by
  intro b hb w hw
  rw [withTimes] at hb
  obtain ⟨b0, hb0, rfl⟩ := List.mem_map.1 hb
  exact hinv b0 hb0 w hw

theorem applyMove_capable (slow fast : Building) (u : ℕ) (cq : ℤ)
    (hslow : ∀ w, containsD slow.assignments w = true → containsD slow.unit_data w = true)
    (hfast : ∀ w, containsD fast.assignments w = true → containsD fast.unit_data w = true)
    (hu_slow : containsD slow.unit_data u = true)
    (hu_fast : containsD fast.unit_data u = true) :
    (∀ w, containsD (applyMove slow fast u cq).1.assignments w = true →
        containsD (applyMove slow fast u cq).1.unit_data w = true) ∧
      (∀ w, containsD (applyMove slow fast u cq).2.assignments w = true →
        containsD (applyMove slow fast u cq).2.unit_data w = true) := by
  rw [applyMove]
  simp only []
  constructor
  · intro w hw
    by_cases hbr : (lookupD slow.assignments u).getD 0 - min 10 (cq - 1) ≤ 0
    · rw [if_pos hbr] at hw
      exact hslow w (containsD_eraseD _ _ _ hw)
    · rw [if_neg hbr] at hw
      rcases containsD_setD _ _ _ _ hw with rfl | hold
      · exact hu_slow
      · exact hslow w hold
  · intro w hw
    rcases containsD_setD _ _ _ _ hw with rfl | hold
    · exact hu_fast
    · exact hfast w hold

theorem capInv_default : ∀ w, containsD (default : Building).assignments w = true →
    containsD (default : Building).unit_data w = true := by
  intro w hw
  rw [show (default : Building).assignments = [] from rfl] at hw
  simp [containsD] at hw

theorem balanceLoop_capInv (tol : ℚ) : ∀ (f : ℕ) (bs : List Building),
    CapInv bs → CapInv (balanceLoop tol f bs).2 := by
  intro f
  induction f with
  | zero => intro bs hinv; exact hinv
  | succ g ih =>
    intro bs hinv
    have hinv1 : CapInv (withTimes bs) := capInv_withTimes bs hinv
    rw [balanceLoop]
    by_cases h1 : ((withTimes bs).map Building.estimated_time).isEmpty
    · rw [if_pos h1]; exact hinv1
    · rw [if_neg (by simpa using h1)]
      by_cases h2 : maxQ ((withTimes bs).map Building.estimated_time) -
          minQ ((withTimes bs).map Building.estimated_time) ≤ tol
      · rw [if_pos h2]; exact hinv1
      · rw [if_neg h2]
        simp only []
        split
        · exact hinv1
        · rename_i u cq heq
          apply ih
          have hfm := findMovable_some _ _ _ _ _ heq
          have hgetInv : ∀ i : ℕ, ∀ w, containsD ((withTimes bs).getD i default).assignments w =
              true → containsD ((withTimes bs).getD i default).unit_data w = true := by
            intro i w hw
            by_cases hlen : i < (withTimes bs).length
            · have hmem : (withTimes bs).getD i default ∈ withTimes bs := by
                rw [List.getD_eq_getElem _ default hlen]
                exact List.getElem_mem hlen
              exact hinv1 _ hmem w hw
            · rw [List.getD_eq_default _ _ (Nat.le_of_not_lt hlen)] at hw ⊢
              exact capInv_default w hw
          have hu_slow : containsD ((withTimes bs).getD
              (((withTimes bs).map Building.estimated_time).findIdx
                (fun t => t == maxQ ((withTimes bs).map Building.estimated_time)))
              default).unit_data u = true := by
            apply hgetInv
            rw [containsD_iff_mem_keys]
            exact hfm.1
          have hmove := applyMove_capable _ _ u cq
            (hgetInv (((withTimes bs).map Building.estimated_time).findIdx
              (fun t => t == maxQ ((withTimes bs).map Building.estimated_time))))
            (hgetInv (((withTimes bs).map Building.estimated_time).findIdx
              (fun t => t == minQ ((withTimes bs).map Building.estimated_time))))
            hu_slow hfm.2.1
          intro b hb w hw
          rcases List.mem_or_eq_of_mem_set hb with hb2 | rfl
          · rcases List.mem_or_eq_of_mem_set hb2 with hb3 | rfl
            · exact hinv1 b hb3 w hw
            · exact hmove.1 w hw
          · exact hmove.2 w hw

/-- C3: at no point during planning — after the initial allocation or after
any number of balancing iterations — does a building hold an assignment for
a unit type absent from its capability map. -/
theorem C3_capability_respected (bs : List Building) (order : List (ℕ × ℤ)) (f : ℕ) :
    CapInv (initialAlloc bs order) ∧
      CapInv (balanceLoop 1800 f (withTimes (initialAlloc bs order))).2 := by
  have h1 := capInv_initialAlloc bs order
  exact ⟨h1, balanceLoop_capInv 1800 f _ (capInv_withTimes _ h1)⟩

/-! ### Claims C1 and C2: machinery for the proportional allocation -/

theorem keepsU_refl (u : ℕ) (bs : List Building) : List.Forall₂ (KeepsU u) bs bs := by
  induction bs with
  | nil => exact List.Forall₂.nil
  | cons b rest ih => exact List.Forall₂.cons ⟨rfl, rfl⟩ ih

theorem keepsU_trans (u : ℕ) :
    ∀ {l1 l2 l3 : List Building}, List.Forall₂ (KeepsU u) l1 l2 →
      List.Forall₂ (KeepsU u) l2 l3 → List.Forall₂ (KeepsU u) l1 l3 := by
  intro l1 l2 l3 h12
  induction h12 generalizing l3 with
  | nil =>
    intro h23
    cases h23
    exact List.Forall₂.nil
  | cons hab hrest ih =>
    intro h23
    cases h23 with
    | cons hbc hrest2 =>
      exact List.Forall₂.cons ⟨hbc.1.trans hab.1, hbc.2.trans hab.2⟩ (ih hrest2)

theorem setQuotas_keepsU (u2 u : ℕ) (hne : u ≠ u2) :
    ∀ (bs : List Building) (quotas : List ℤ),
      List.Forall₂ (KeepsU u) bs (setQuotas u2 bs quotas) := by
  intro bs
  induction bs with
  | nil => intro quotas; exact List.Forall₂.nil
  | cons b rest ih =>
    intro quotas
    rw [setQuotas.eq_def]
    simp only []
    by_cases hc : containsD b.unit_data u2
    · rw [if_pos hc]
      cases quotas with
      | nil => exact keepsU_refl u _
      | cons qv rest2 =>
        refine List.Forall₂.cons ?_ (ih rest2)
        by_cases hq : 0 < qv
        · rw [if_pos hq]
          exact ⟨rfl, lookupD_setD_ne b.assignments u2 u qv hne⟩
        · rw [if_neg hq]
          exact ⟨rfl, rfl⟩
    · rw [if_neg (by simpa using hc)]
      exact List.Forall₂.cons ⟨rfl, rfl⟩ (ih quotas)

theorem assignUnit_keepsU (bs : List Building) (u2 : ℕ) (q : ℤ) (u : ℕ) (hne : u ≠ u2) :
    List.Forall₂ (KeepsU u) bs (assignUnit bs u2 q) := by
  rw [assignUnit]
  by_cases hcap : (capableOf bs u2).isEmpty
  · rw [if_pos hcap]; exact keepsU_refl u bs
  · rw [if_neg hcap]
    exact setQuotas_keepsU u2 u hne bs _

theorem foldl_keepsU (u : ℕ) :
    ∀ (l : List (ℕ × ℤ)) (acc : List Building), (∀ p ∈ l, p.1 ≠ u) →
      List.Forall₂ (KeepsU u) acc
        (l.foldl (fun acc p => assignUnit acc p.1 p.2) acc) := by
  intro l
  induction l with
  | nil => intro acc _; exact keepsU_refl u acc
  | cons p rest ih =>
    intro acc hkeys
    rw [List.foldl_cons]
    refine keepsU_trans u ?_ (ih _ (fun q hq => hkeys q (List.mem_cons_of_mem _ hq)))
    exact assignUnit_keepsU acc p.1 p.2 u (Ne.symm (hkeys p (List.mem_cons_self _ _)))

theorem capableOf_keepsU (u : ℕ) :
    ∀ {l1 l2 : List Building}, List.Forall₂ (KeepsU u) l1 l2 →
      List.Forall₂ (KeepsU u) (capableOf l1 u) (capableOf l2 u) := by
  intro l1 l2 h
  induction h with
  | nil => exact List.Forall₂.nil
  | cons hab hrest ih =>
    rename_i a b x y
    rw [capableOf, List.filter_cons, capableOf, List.filter_cons]
    by_cases hc : containsD a.unit_data u
    · rw [if_pos (by simpa using hc), if_pos (by rw [hab.1]; simpa using hc)]
      exact List.Forall₂.cons hab ih
    · rw [if_neg (by simpa using hc), if_neg (by rw [hab.1]; simpa using hc)]
      exact ih

theorem mapSpeed_keepsU (u : ℕ) :
    ∀ {c1 c2 : List Building}, List.Forall₂ (KeepsU u) c1 c2 →
      c2.map (fun b => speedOf (unitTime b u)) = c1.map (fun b => speedOf (unitTime b u)) := by
  intro c1 c2 h
  induction h with
  | nil => rfl
  | cons hab hrest ih =>
    rw [List.map_cons, List.map_cons, ih, unitTime, unitTime, hab.1]

theorem speedFactors_keepsU (u : ℕ) {l1 l2 : List Building}
    (h : List.Forall₂ (KeepsU u) l1 l2) : speedFactors l2 u = speedFactors l1 u :=
  mapSpeed_keepsU u (capableOf_keepsU u h)

theorem sumAssigned_keepsU (u : ℕ) {l1 l2 : List Building}
    (h : List.Forall₂ (KeepsU u) l1 l2) : sumAssigned u l2 = sumAssigned u l1 := by
  rw [sumAssigned, sumAssigned]
  induction h with
  | nil => rfl
  | cons hab hrest ih =>
    rw [List.map_cons, List.map_cons, List.sum_cons, List.sum_cons, ih, getD0, getD0, hab.2]

theorem lookup_none_keepsU (u : ℕ) {l1 l2 : List Building}
    (h : List.Forall₂ (KeepsU u) l1 l2)
    (hnone : ∀ b ∈ l1, lookupD b.assignments u = none) :
    ∀ b ∈ l2, lookupD b.assignments u = none := by
  induction h with
  | nil => intro b hb; cases hb
  | cons hab hrest ih =>
    rename_i a b x y
    intro b2 hb2
    rcases List.mem_cons.1 hb2 with rfl | hb3
    · rw [hab.2]
      exact hnone a (List.mem_cons_self _ _)
    · exact ih (fun b3 hb3 => hnone b3 (List.mem_cons_of_mem _ hb3)) b2 hb3

theorem capableOf_reset (bs : List Building) (u : ℕ) :
    capableOf (resetBuildings bs) u =
      (capableOf bs u).map (fun b => { b with assignments := [], estimated_time := 0 }) := by
  induction bs with
  | nil => rfl
  | cons b rest ih =>
    rw [resetBuildings, List.map_cons, capableOf, List.filter_cons, capableOf, List.filter_cons]
    have ih2 := ih
    rw [capableOf, resetBuildings, capableOf] at ih2
    by_cases hc : containsD b.unit_data u
    · rw [if_pos (by exact hc), if_pos (by exact hc), List.map_cons, ih2]
    · rw [if_neg (by exact (by simpa using hc : ¬containsD b.unit_data u = true)),
        if_neg (by simpa using hc), ih2]

theorem speedFactors_reset (bs : List Building) (u : ℕ) :
    speedFactors (resetBuildings bs) u = speedFactors bs u := by
  rw [speedFactors, speedFactors, capableOf_reset, List.map_map]
  rfl

theorem capableOf_reset_length (bs : List Building) (u : ℕ) :
    (capableOf (resetBuildings bs) u).length = (capableOf bs u).length := by
  rw [capableOf_reset, List.length_map]

theorem forall₂_length {R : Building → Building → Prop} :
    ∀ {l1 l2 : List Building}, List.Forall₂ R l1 l2 → l1.length = l2.length := by
  intro l1 l2 h
  induction h with
  | nil => rfl
  | cons _ _ ih => simpa using ih

theorem allocQuotas_length (q : ℤ) (S : ℚ) :
    ∀ (speeds : List ℚ) (rem : ℤ), (allocQuotas q S speeds rem).length = speeds.length := by
  intro speeds
  induction speeds with
  | nil => intro rem; rfl
  | cons s tail ih =>
    intro rem
    cases tail with
    | nil => rfl
    | cons s2 r =>
      rw [allocQuotas, List.length_cons, List.length_cons, List.length_cons, ih]
      simp

theorem allocQuotas_sum (q : ℤ) (S : ℚ) :
    ∀ (speeds : List ℚ) (rem : ℤ), speeds ≠ [] → (allocQuotas q S speeds rem).sum = rem := by
  intro speeds
  induction speeds with
  | nil => intro rem h; exact absurd rfl h
  | cons s tail ih =>
    intro rem _
    cases tail with
    | nil => simp [allocQuotas]
    | cons s2 r =>
      rw [allocQuotas, List.sum_cons, ih _ (by simp)]
      ring

theorem allocQuotas_getD_lt (q : ℤ) (S : ℚ) :
    ∀ (speeds : List ℚ) (rem : ℤ) (j : ℕ), j + 1 < speeds.length →
      (allocQuotas q S speeds rem).getD j 0 = pyInt ((q : ℚ) * (speeds.getD j 0 / S)) := by
  intro speeds
  induction speeds with
  | nil => intro rem j h; simp at h
  | cons s tail ih =>
    intro rem j h
    cases tail with
    | nil => simp at h
    | cons s2 r =>
      rw [allocQuotas]
      cases j with
      | zero => rfl
      | succ i =>
        rw [List.getD_cons_succ, List.getD_cons_succ]
        exact ih _ i (by simpa using h)

theorem allocQuotas_getD_last (q : ℤ) (S : ℚ) :
    ∀ (speeds : List ℚ) (rem : ℤ), speeds ≠ [] →
      (allocQuotas q S speeds rem).getD (speeds.length - 1) 0 =
        rem - ((speeds.take (speeds.length - 1)).map
          (fun s => pyInt ((q : ℚ) * (s / S)))).sum := by
  intro speeds
  induction speeds with
  | nil => intro rem h; exact absurd rfl h
  | cons s tail ih =>
    intro rem _
    cases tail with
    | nil => simp [allocQuotas]
    | cons s2 r =>
      rw [allocQuotas]
      have hlen : (s :: s2 :: r).length - 1 = (s2 :: r).length - 1 + 1 := by
        simp
      rw [hlen, List.getD_cons_succ, ih _ (by simp)]
      rw [List.take_succ_cons, List.map_cons, List.sum_cons]
      ring

theorem allocQuotas_nonneg (q : ℤ) (S : ℚ) (hq : 0 ≤ q) (hS : 0 < S) :
    ∀ (speeds : List ℚ) (rem : ℤ), (∀ s ∈ speeds, 0 < s) →
      (q : ℚ) * (speeds.sum / S) ≤ (rem : ℤ) → ∀ x ∈ allocQuotas q S speeds rem, 0 ≤ x := by
  intro speeds
  induction speeds with
  | nil => intro rem _ _ x hx; simp [allocQuotas] at hx
  | cons s tail ih =>
    intro rem hpos hbound x hx
    cases tail with
    | nil =>
      rw [allocQuotas] at hx
      rw [List.mem_singleton] at hx
      subst hx
      have hs := hpos s (List.mem_cons_self _ _)
      have h1 : (0 : ℚ) ≤ (q : ℚ) * (List.sum [s] / S) := by
        apply mul_nonneg (by exact_mod_cast hq)
        apply div_nonneg _ (le_of_lt hS)
        simpa using le_of_lt hs
      have h2 : (0 : ℚ) ≤ (x : ℚ) := le_trans h1 hbound
      exact_mod_cast h2
    | cons s2 r =>
      rw [allocQuotas] at hx
      have hs := hpos s (List.mem_cons_self _ _)
      have hhead : (0 : ℚ) ≤ (q : ℚ) * (s / S) := by
        apply mul_nonneg (by exact_mod_cast hq)
        exact div_nonneg (le_of_lt hs) (le_of_lt hS)
      rcases List.mem_cons.1 hx with rfl | hx2
      · exact pyInt_nonneg _ hhead
      · apply ih (rem - pyInt ((q : ℚ) * (s / S)))
          (fun s3 hs3 => hpos s3 (List.mem_cons_of_mem _ hs3)) _ x hx2
        have hple : (pyInt ((q : ℚ) * (s / S)) : ℚ) ≤ (q : ℚ) * (s / S) :=
          pyInt_le _ hhead
        have hsum : (s :: s2 :: r).sum = s + (s2 :: r).sum := by rw [List.sum_cons]
        rw [hsum] at hbound
        have hexp : (q : ℚ) * ((s + (s2 :: r).sum) / S) =
            (q : ℚ) * (s / S) + (q : ℚ) * ((s2 :: r).sum / S) := by
          rw [add_div]
          ring
        rw [hexp] at hbound
        push_cast
        linarith

theorem setQuotas_cons_pos (u : ℕ) (b : Building) (rest : List Building) (qv : ℤ)
    (rest2 : List ℤ) (hc : containsD b.unit_data u = true) :
    setQuotas u (b :: rest) (qv :: rest2) =
      (if 0 < qv then { b with assignments := setD b.assignments u qv } else b)
        :: setQuotas u rest rest2 := by
  rw [setQuotas.eq_def]
  simp only []
  rw [if_pos hc]

theorem setQuotas_cons_neg (u : ℕ) (b : Building) (rest : List Building) (quotas : List ℤ)
    (hc : ¬containsD b.unit_data u = true) :
    setQuotas u (b :: rest) quotas = b :: setQuotas u rest quotas := by
  rw [setQuotas.eq_def]
  simp only []
  rw [if_neg hc]

theorem capableOf_setQuotas (u : ℕ) :
    ∀ (bs : List Building) (quotas : List ℤ), quotas.length = (capableOf bs u).length →
      capableOf (setQuotas u bs quotas) u =
        List.zipWith
          (fun b qv =>
            if 0 < qv then { b with assignments := setD b.assignments u qv } else b)
          (capableOf bs u) quotas := by
  intro bs
  induction bs with
  | nil => intro quotas h; simp [setQuotas, capableOf]
  | cons b rest ih =>
    intro quotas hlen
    rw [capableOf, List.filter_cons] at hlen
    by_cases hc : containsD b.unit_data u
    · rw [if_pos (by simpa using hc)] at hlen
      cases quotas with
      | nil => simp at hlen
      | cons qv rest2 =>
        rw [setQuotas_cons_pos u b rest qv rest2 hc]
        have hcap2 : containsD
            (if 0 < qv then { b with assignments := setD b.assignments u qv } else b).unit_data
            u = true := by
          by_cases hq : 0 < qv
          · rw [if_pos hq]; exact hc
          · rw [if_neg hq]; exact hc
        conv_lhs => rw [capableOf, List.filter_cons, if_pos hcap2]
        conv_rhs => rw [capableOf, List.filter_cons, if_pos hc, List.zipWith_cons_cons]
        have ih2 := ih rest2 (by simpa using hlen)
        rw [capableOf] at ih2
        rw [ih2, capableOf]
    · have hc2 : ¬containsD b.unit_data u = true := by simpa using hc
      rw [if_neg hc2] at hlen
      rw [setQuotas_cons_neg u b rest quotas hc2]
      conv_lhs => rw [capableOf, List.filter_cons, if_neg hc2]
      conv_rhs => rw [capableOf, List.filter_cons, if_neg hc2]
      have ih2 := ih quotas hlen
      rw [capableOf] at ih2
      rw [ih2, capableOf]

theorem upd_getD0 (b : Building) (u : ℕ) (qv : ℤ)
    (hnone : lookupD b.assignments u = none) (hqv : 0 ≤ qv) :
    getD0 (if 0 < qv then { b with assignments := setD b.assignments u qv } else b).assignments
      u = qv := by
  by_cases hq : 0 < qv
  · rw [if_pos hq]
    exact getD0_setD_self b.assignments u qv
  · rw [if_neg hq]
    rw [getD0, hnone]
    simp only [Option.getD_none]
    omega

theorem sumAssigned_setQuotas (u : ℕ) :
    ∀ (bs : List Building) (quotas : List ℤ),
      (∀ b ∈ bs, lookupD b.assignments u = none) →
      quotas.length = (capableOf bs u).length → (∀ x ∈ quotas, 0 ≤ x) →
      sumAssigned u (setQuotas u bs quotas) = quotas.sum := by
  intro bs
  induction bs with
  | nil =>
    intro quotas _ hlen _
    rw [show capableOf [] u = [] from rfl] at hlen
    rw [List.length_nil] at hlen
    rw [List.eq_nil_of_length_eq_zero hlen]
    rfl
  | cons b rest ih =>
    intro quotas hnone hlen hpos
    rw [capableOf, List.filter_cons] at hlen
    by_cases hc : containsD b.unit_data u
    · rw [if_pos (by simpa using hc)] at hlen
      cases quotas with
      | nil => simp at hlen
      | cons qv rest2 =>
        rw [setQuotas_cons_pos u b rest qv rest2 hc]
        rw [sumAssigned, List.map_cons, List.sum_cons, List.sum_cons]
        have hswap := ih rest2 (fun b2 hb2 => hnone b2 (List.mem_cons_of_mem _ hb2))
          (by simpa using hlen) (fun x hx => hpos x (List.mem_cons_of_mem _ hx))
        rw [sumAssigned] at hswap
        rw [hswap, upd_getD0 b u qv (hnone b (List.mem_cons_self _ _))
          (hpos qv (List.mem_cons_self _ _))]
    · have hc2 : ¬containsD b.unit_data u = true := by simpa using hc
      rw [if_neg hc2] at hlen
      rw [setQuotas_cons_neg u b rest quotas hc2]
      rw [sumAssigned, List.map_cons, List.sum_cons]
      have hb0 : getD0 b.assignments u = 0 := by
        rw [getD0, hnone b (List.mem_cons_self _ _)]
        rfl
      have hswap := ih quotas (fun b2 hb2 => hnone b2 (List.mem_cons_of_mem _ hb2)) hlen hpos
      rw [sumAssigned] at hswap
      rw [hswap, hb0, zero_add]

theorem assignUnit_eq (bs : List Building) (u : ℕ) (q : ℤ) (h : capableOf bs u ≠ []) :
    assignUnit bs u q =
      setQuotas u bs (allocQuotas q (speedFactors bs u).sum (speedFactors bs u) q) := by
  have hS := speedFactors_sum_pos bs u h
  rw [assignUnit, if_neg (by simpa [List.isEmpty_iff] using h)]
  simp only [if_neg (ne_of_gt hS)]

theorem speedFactors_length (bs : List Building) (u : ℕ) :
    (speedFactors bs u).length = (capableOf bs u).length :=
  List.length_map _ _

theorem speedFactors_mem_pos (bs : List Building) (u : ℕ) :
    ∀ s ∈ speedFactors bs u, 0 < s := by
  intro s hs
  obtain ⟨b, _, rfl⟩ := List.mem_map.1 hs
  exact speedOf_pos _

theorem assignUnit_sum (bs : List Building) (u : ℕ) (q : ℤ)
    (hnone : ∀ b ∈ bs, lookupD b.assignments u = none)
    (hcap : capableOf bs u ≠ []) (hq : 0 ≤ q) :
    sumAssigned u (assignUnit bs u q) = q := by
  have hS := speedFactors_sum_pos bs u hcap
  rw [assignUnit_eq bs u q hcap]
  have hsne : speedFactors bs u ≠ [] := by
    simpa [speedFactors, List.map_eq_nil_iff] using hcap
  have hbound : (q : ℚ) * ((speedFactors bs u).sum / (speedFactors bs u).sum) ≤ (q : ℚ) := by
    rw [div_self (ne_of_gt hS), mul_one]
  rw [sumAssigned_setQuotas u bs _ hnone
    (by rw [allocQuotas_length, speedFactors_length])
    (allocQuotas_nonneg q _ hq hS _ q (speedFactors_mem_pos bs u) hbound)]
  exact allocQuotas_sum q _ _ q hsne

theorem sumAssigned_withTimes (u : ℕ) (bs : List Building) :
    sumAssigned u (withTimes bs) = sumAssigned u bs := by
  rw [sumAssigned, sumAssigned, withTimes, List.map_map]
  rfl

theorem applyMove_getD0_sum (slow fast : Building) (u2 : ℕ) (cq : ℤ) (hcq : 10 < cq)
    (hl : (lookupD slow.assignments u2).getD 0 = cq) (u : ℕ) :
    getD0 (applyMove slow fast u2 cq).1.assignments u +
      getD0 (applyMove slow fast u2 cq).2.assignments u =
    getD0 slow.assignments u + getD0 fast.assignments u := by
  obtain ⟨hs, hf⟩ := applyMove_assignments slow fast u2 cq hcq hl
  rw [hs, hf]
  by_cases h : u = u2
  · subst h
    rw [getD0_setD_self, getD0_setD_self]
    have h2 : getD0 slow.assignments u = cq := hl
    rw [h2]
    ring
  · rw [getD0_setD_ne _ _ _ _ h, getD0_setD_ne _ _ _ _ h]

theorem getD0_keepsU (u : ℕ) {l1 l2 : List Building}
    (h : List.Forall₂ (KeepsU u) l1 l2) :
    ∀ j : ℕ, getD0 (l2.getD j default).assignments u =
      getD0 (l1.getD j default).assignments u := by
  induction h with
  | nil => intro j; rfl
  | cons hab hrest ih =>
    intro j
    cases j with
    | zero =>
      simp only [List.getD_cons_zero]
      rw [getD0, getD0, hab.2]
    | succ i =>
      simp only [List.getD_cons_succ]
      exact ih i

theorem resetBuildings_lookup_none (bs : List Building) (u : ℕ) :
    ∀ b ∈ resetBuildings bs, lookupD b.assignments u = none := by
  intro b hb
  rw [resetBuildings] at hb
  obtain ⟨a, _, rfl⟩ := List.mem_map.1 hb
  rfl

theorem initialAlloc_split (o1 o2 : List (ℕ × ℤ)) (u : ℕ) (q : ℤ)
    (hnd : ((o1 ++ (u, q) :: o2).map Prod.fst).Nodup) :
    (∀ p ∈ o1, p.1 ≠ u) ∧ (∀ p ∈ o2, p.1 ≠ u) := by
  rw [List.map_append, List.map_cons] at hnd
  rw [List.nodup_append] at hnd
  obtain ⟨hA, hB, hdisj⟩ := hnd
  constructor
  · intro p hp hEq
    have hm : p.1 ∈ o1.map Prod.fst := List.mem_map_of_mem Prod.fst hp
    exact hdisj (hEq ▸ hm) (List.mem_cons_self _ _)
  · intro p hp hEq
    have hm : p.1 ∈ o2.map Prod.fst := List.mem_map_of_mem Prod.fst hp
    exact (List.nodup_cons.1 hB).1 (hEq ▸ hm)

theorem mid_facts (bs : List Building) (o1 : List (ℕ × ℤ)) (u : ℕ)
    (hu1 : ∀ p ∈ o1, p.1 ≠ u) :
    (∀ b ∈ o1.foldl (fun acc p => assignUnit acc p.1 p.2) (resetBuildings bs),
        lookupD b.assignments u = none) ∧
      speedFactors (o1.foldl (fun acc p => assignUnit acc p.1 p.2) (resetBuildings bs)) u =
        speedFactors bs u ∧
      (capableOf (o1.foldl (fun acc p => assignUnit acc p.1 p.2) (resetBuildings bs)) u).length =
        (capableOf bs u).length := by
  have hKeep1 := foldl_keepsU u o1 (resetBuildings bs) hu1
  refine ⟨lookup_none_keepsU u hKeep1 (resetBuildings_lookup_none bs u), ?_, ?_⟩
  · exact (speedFactors_keepsU u hKeep1).trans (speedFactors_reset bs u)
  · rw [← forall₂_length (capableOf_keepsU u hKeep1), capableOf_reset_length]

theorem balanceLoop_sumAssigned (tol : ℚ) (htol : 0 ≤ tol) (u : ℕ) :
    ∀ (f : ℕ) (bs : List Building),
      sumAssigned u (balanceLoop tol f bs).2 = sumAssigned u bs := by
  intro f
  induction f with
  | zero => intro bs; rfl
  | succ g ih =>
    intro bs
    rw [balanceLoop]
    by_cases h1 : ((withTimes bs).map Building.estimated_time).isEmpty
    · rw [if_pos h1]; exact sumAssigned_withTimes u bs
    · rw [if_neg (by simpa using h1)]
      by_cases h2 : maxQ ((withTimes bs).map Building.estimated_time) -
          minQ ((withTimes bs).map Building.estimated_time) ≤ tol
      · rw [if_pos h2]; exact sumAssigned_withTimes u bs
      · rw [if_neg h2]
        simp only []
        split
        · exact sumAssigned_withTimes u bs
        · rename_i u2 cq heq
          rw [ih]
          have hfm := findMovable_some _ _ _ _ _ heq
          have hne' : ((withTimes bs).map Building.estimated_time) ≠ [] := by
            simpa [List.isEmpty_iff] using h1
          have hmaxne : maxQ ((withTimes bs).map Building.estimated_time) ≠
              minQ ((withTimes bs).map Building.estimated_time) := by
            intro hEq
            exact h2 (by rw [hEq]; simpa using htol)
          have hsl : ((withTimes bs).map Building.estimated_time).findIdx
              (fun t => t == maxQ ((withTimes bs).map Building.estimated_time)) <
              ((withTimes bs).map Building.estimated_time).length :=
            List.findIdx_lt_length_of_exists
              ⟨maxQ ((withTimes bs).map Building.estimated_time),
                maxQ_mem _ hne', by simp⟩
          have hfa : ((withTimes bs).map Building.estimated_time).findIdx
              (fun t => t == minQ ((withTimes bs).map Building.estimated_time)) <
              ((withTimes bs).map Building.estimated_time).length :=
            List.findIdx_lt_length_of_exists
              ⟨minQ ((withTimes bs).map Building.estimated_time),
                minQ_mem _ hne', by simp⟩
          have hvs : ((withTimes bs).map Building.estimated_time).getD
              (((withTimes bs).map Building.estimated_time).findIdx
                (fun t => t == maxQ ((withTimes bs).map Building.estimated_time))) 0 =
              maxQ ((withTimes bs).map Building.estimated_time) := by
            rw [List.getD_eq_getElem _ 0 hsl]
            simpa using @List.findIdx_getElem _ _ _ hsl
          have hvf : ((withTimes bs).map Building.estimated_time).getD
              (((withTimes bs).map Building.estimated_time).findIdx
                (fun t => t == minQ ((withTimes bs).map Building.estimated_time))) 0 =
              minQ ((withTimes bs).map Building.estimated_time) := by
            rw [List.getD_eq_getElem _ 0 hfa]
            simpa using @List.findIdx_getElem _ _ _ hfa
          have hidx : ((withTimes bs).map Building.estimated_time).findIdx
              (fun t => t == maxQ ((withTimes bs).map Building.estimated_time)) ≠
              ((withTimes bs).map Building.estimated_time).findIdx
                (fun t => t == minQ ((withTimes bs).map Building.estimated_time)) := by
            intro hEq
            apply hmaxne
            rw [← hvs, hEq, hvf]
          have hsl2 : ((withTimes bs).map Building.estimated_time).findIdx
              (fun t => t == maxQ ((withTimes bs).map Building.estimated_time)) <
              (withTimes bs).length := by
            rw [← List.length_map (withTimes bs) Building.estimated_time]
            exact hsl
          have hfa2 : ((withTimes bs).map Building.estimated_time).findIdx
              (fun t => t == minQ ((withTimes bs).map Building.estimated_time)) <
              (withTimes bs).length := by
            rw [← List.length_map (withTimes bs) Building.estimated_time]
            exact hfa
          rw [sumAssigned]
          rw [sum_map_set _ _ _ default _ (by simpa using hfa2)]
          rw [getD_set_ne _ _ _ _ default hidx]
          rw [sum_map_set _ _ _ default _ hsl2]
          have hmove := applyMove_getD0_sum
            ((withTimes bs).getD
              (((withTimes bs).map Building.estimated_time).findIdx
                (fun t => t == maxQ ((withTimes bs).map Building.estimated_time))) default)
            ((withTimes bs).getD
              (((withTimes bs).map Building.estimated_time).findIdx
                (fun t => t == minQ ((withTimes bs).map Building.estimated_time))) default)
            u2 cq hfm.2.2.2 hfm.2.2.1 u
          rw [← sumAssigned, sumAssigned_withTimes]
          omega

theorem allocQuotas_spec (q : ℤ) (speeds : List ℚ) (hq : 0 ≤ q)
    (hpos : ∀ s ∈ speeds, 0 < s) (j : ℕ) (hj : j < speeds.length) :
    (allocQuotas q speeds.sum speeds q).getD j 0 = spec_initial_quota q speeds j := by
  have hne : speeds ≠ [] := by
    intro h
    rw [h] at hj
    simp at hj
  have hS : 0 < speeds.sum := List.sum_pos speeds hpos hne
  rw [spec_initial_quota]
  by_cases hlast : j + 1 = speeds.length
  · rw [if_pos hlast]
    have hj' : j = speeds.length - 1 := by omega
    rw [hj', allocQuotas_getD_last q speeds.sum speeds q hne]
    congr 1
    refine congrArg List.sum (List.map_congr_left ?_)
    intro s hs
    have hsp : 0 < s := hpos s (List.mem_of_mem_take hs)
    rw [pyInt_of_nonneg _ (mul_nonneg (by exact_mod_cast hq) (le_of_lt (div_pos hsp hS))),
      mul_div_assoc]
  · rw [if_neg hlast]
    have hjlt : j + 1 < speeds.length := by omega
    rw [allocQuotas_getD_lt q speeds.sum speeds q j hjlt]
    have hmem : speeds.getD j 0 ∈ speeds := by
      rw [List.getD_eq_getElem _ 0 hj]
      exact List.getElem_mem hj
    have hsp : 0 < speeds.getD j 0 := hpos _ hmem
    rw [pyInt_of_nonneg _ (mul_nonneg (by exact_mod_cast hq) (le_of_lt (div_pos hsp hS))),
      mul_div_assoc]

theorem assignUnit_getD (bs : List Building) (u : ℕ) (q : ℤ)
    (hnone : ∀ b ∈ bs, lookupD b.assignments u = none) (hcap : capableOf bs u ≠ [])
    (hq : 0 ≤ q) (j : ℕ) (hj : j < (capableOf bs u).length) :
    getD0 ((capableOf (assignUnit bs u q) u).getD j default).assignments u =
      (allocQuotas q (speedFactors bs u).sum (speedFactors bs u) q).getD j 0 := by
  have hS := speedFactors_sum_pos bs u hcap
  have hlenq : (allocQuotas q (speedFactors bs u).sum (speedFactors bs u) q).length =
      (capableOf bs u).length := by
    rw [allocQuotas_length, speedFactors_length]
  rw [assignUnit_eq bs u q hcap, capableOf_setQuotas u bs _ hlenq]
  have hjq : j < (allocQuotas q (speedFactors bs u).sum (speedFactors bs u) q).length := by
    omega
  have hjz : j < (List.zipWith
      (fun b qv => if 0 < qv then { b with assignments := setD b.assignments u qv } else b)
      (capableOf bs u)
      (allocQuotas q (speedFactors bs u).sum (speedFactors bs u) q)).length := by
    rw [List.length_zipWith]
    omega
  rw [List.getD_eq_getElem _ default hjz, List.getElem_zipWith]
  have hbmem : (capableOf bs u)[j] ∈ bs :=
    List.mem_of_mem_filter (List.getElem_mem hj)
  have hbnone : lookupD ((capableOf bs u)[j]).assignments u = none := hnone _ hbmem
  have hqvnn : 0 ≤ (allocQuotas q (speedFactors bs u).sum (speedFactors bs u) q)[j] := by
    apply allocQuotas_nonneg q _ hq hS _ q (speedFactors_mem_pos bs u)
    · rw [div_self (ne_of_gt hS), mul_one]
    · exact List.getElem_mem hjq
  have h := upd_getD0 ((capableOf bs u)[j]) u
    ((allocQuotas q (speedFactors bs u).sum (speedFactors bs u) q)[j]) hbnone hqvnn
  rw [h, List.getD_eq_getElem _ 0 hjq]

/-- C1: for every valid planner input — distinct order keys (a Python dict),
non-negative quantities — and every ordered unit type `u` with at least one
capable building, the output of `calculate_distribution`, including the
`balance_distribution` post-pass, assigns exactly the requested quantity of
`u` in total across all buildings. -/
theorem C1_conservation (bs out : List Building) (order : List (ℕ × ℤ)) (u : ℕ) (q : ℤ)
    (hnd : (order.map Prod.fst).Nodup) (hq : 0 ≤ q) (hmem : (u, q) ∈ order)
    (hcap : capableOf bs u ≠ [])
    (hout : calculate_distribution bs order = some out) :
    sumAssigned u out = q := by
  obtain ⟨o1, o2, rfl⟩ := List.append_of_mem hmem
  obtain ⟨hu1, hu2⟩ := initialAlloc_split o1 o2 u q hnd
  obtain ⟨hnone_mid, hsf, hlen⟩ := mid_facts bs o1 u hu1
  have hbs : bs.isEmpty = false := by
    cases bs with
    | nil => exact absurd rfl hcap
    | cons b r => rfl
  have hord : (o1 ++ (u, q) :: o2).isEmpty = false := by
    cases o1 <;> rfl
  rw [calculate_distribution, hbs, hord, if_neg (by simp)] at hout
  have hX := Option.some.inj hout
  rw [← hX, balance_distribution, balanceLoop_sumAssigned 1800 (by norm_num) u 100,
    sumAssigned_withTimes, initialAlloc, List.foldl_append, List.foldl_cons]
  have hcap_mid : capableOf (List.foldl (fun acc p => assignUnit acc p.1 p.2)
      (resetBuildings bs) o1) u ≠ [] := by
    intro hEq
    apply hcap
    apply List.eq_nil_of_length_eq_zero
    rw [← hlen, hEq]
    rfl
  have hsum_mid := assignUnit_sum _ u q hnone_mid hcap_mid hq
  exact (sumAssigned_keepsU u (foldl_keepsU u o2 _ hu2)).trans hsum_mid

/-- Witness for C1: an order of 10 units over the two sample buildings is
planned as a 6/4 split, summing back to 10. -/
theorem C1_conservation_witness :
    calculate_distribution [sampleB1, sampleB2] [(1, 10)] = some c1Out ∧
      sumAssigned 1 c1Out = 10 := by
  have hcalc : calculate_distribution [sampleB1, sampleB2] [(1, 10)] = some c1Out := by
    with_unfolding_all decide
  refine ⟨hcalc, C1_conservation [sampleB1, sampleB2] c1Out [(1, 10)] 1 10 ?_ ?_ ?_ ?_ hcalc⟩
  · decide
  · decide
  · decide
  · decide

/-- C2: the initial allocation realises the spec's proportional formula —
capable building `j` (in iteration order) receives
`floor(total * speed_j / sum(speeds))` units for every `j` but the last,
with `speed = 1 / build-time` (1.0 when the build time is not positive), and
the last capable building receives the remainder. -/
theorem C2_initial_split (bs : List Building) (order : List (ℕ × ℤ)) (u : ℕ) (q : ℤ)
    (hnd : (order.map Prod.fst).Nodup) (hq : 0 ≤ q) (hmem : (u, q) ∈ order)
    (hcap : capableOf bs u ≠ []) (j : ℕ) (hj : j < (capableOf bs u).length) :
    getD0 ((capableOf (initialAlloc bs order) u).getD j default).assignments u =
      spec_initial_quota q (speedFactors bs u) j := by
  obtain ⟨o1, o2, rfl⟩ := List.append_of_mem hmem
  obtain ⟨hu1, hu2⟩ := initialAlloc_split o1 o2 u q hnd
  obtain ⟨hnone_mid, hsf, hlen⟩ := mid_facts bs o1 u hu1
  rw [initialAlloc, List.foldl_append, List.foldl_cons]
  simp only []
  have hcap_mid : capableOf (List.foldl (fun acc p => assignUnit acc p.1 p.2)
      (resetBuildings bs) o1) u ≠ [] := by
    intro hEq
    apply hcap
    apply List.eq_nil_of_length_eq_zero
    rw [← hlen, hEq]
    rfl
  have hKeep2 := foldl_keepsU u o2
    (assignUnit (List.foldl (fun acc p => assignUnit acc p.1 p.2) (resetBuildings bs) o1) u q)
    hu2
  rw [getD0_keepsU u (capableOf_keepsU u hKeep2) j]
  rw [assignUnit_getD _ u q hnone_mid hcap_mid hq j (by rw [hlen]; exact hj)]
  rw [hsf]
  exact allocQuotas_spec q (speedFactors bs u) hq (speedFactors_mem_pos bs u) j
    (by rw [speedFactors_length]; exact hj)

/-- Witness for C2 at the spec's scenario: 100 units over build times 10 s
and 20 s split 66/34, the last building absorbing the rounding. -/
theorem C2_initial_split_witness :
    getD0 ((capableOf (initialAlloc [sampleB1, sampleB2] sampleOrder) 1).getD 0
        default).assignments 1 = 66 ∧
      getD0 ((capableOf (initialAlloc [sampleB1, sampleB2] sampleOrder) 1).getD 1
        default).assignments 1 = 34 := by
  have h0 := C2_initial_split [sampleB1, sampleB2] sampleOrder 1 100 (by decide)
    (by decide) (by decide) (by decide) 0 (by decide)
  have h1 := C2_initial_split [sampleB1, sampleB2] sampleOrder 1 100 (by decide)
    (by decide) (by decide) (by decide) 1 (by decide)
  refine ⟨h0.trans ?_, h1.trans ?_⟩
  · with_unfolding_all decide
  · with_unfolding_all decide

end AutoRecruitment
